import Mathlib

/-! The inference loop of go-llama.cpp.

A shallow embedding of `inference/inference.go` (with the two wrappers of
`llama.go` it calls) and the properties of its control loop.

Go slices are modelled by their values (`List Token`), Go `int` by `Int`.
A run-time panic of Go (slice bounds out of range, index out of range,
makeslice with a negative length) ends the run with `Outcome.panic`.
The C library behind `llama.go` and the two callbacks of `Infer` are the
fields of `World`; each of them may depend on everything that happened
before (the `trace`).
-/

namespace Inference

/-! ## The data model -/

/-- Vocabulary id, `type Token int32` of `llama.go`; no arithmetic is done on it. -/
abbrev Token := Int

/-- Result of the non-blocking receive `select { case _, ok := <-chInterject: ... default: }`:
nothing ready, channel closed (`ok == false`), a value received (`ok == true`). -/
inductive ChanRecv where
  | empty
  | closed
  | value
deriving DecidableEq, Repr

/-- One interaction of `Infer` with the outside: the calls of `Llama.Eval`,
`Llama.SampleTopPTopK`, `fnOut`, `fnIn` and the poll of `chInterject`, with
their arguments and results. -/
inductive Event where
  | eval (tokens : List Token) (nPast : Int) (nThreads : Int) (ok : Bool)
  | sample (tokens : List Token) (id : Token)
  | output (id : Token)
  | input (lastNTokens : List Token) (interject : Bool) (result : Option (List Token))
  | recv (r : ChanRecv)
deriving DecidableEq, Repr

/-- The fields of `LLamaParams` that `inference.go` reads. `NKeep` is the
requested value; `Infer` overwrites `li.llama.Params.NKeep`, which is the
field `State.NKeep` below. -/
structure LLamaParams where
  RepeatLastN : Int
  NPredict : Int
  NKeep : Int
  NBatch : Int
  NThreads : Int
deriving DecidableEq, Repr

/-- Everything outside `inference.go`: the C library (`llama_n_ctx`,
`llama_token_eos`, `llama_eval`, `llama_sample_top_p_top_k`), the input
callback `fnIn` and the channel `chInterject`. The first argument of the
last four is the trace of the run so far. `llamaEval` is `true` when
`llama_eval` returns 0. `fnIn` returns `none` for a nil pointer; it reads
`*lastNTokens` and does not write it (as the two providers of the repository,
the closure of `InferPromptOnly` and `userPrompt`). -/
structure World where
  ContextSize : Int
  TokenEOS : Token
  llamaEval : List Event → List Token → Int → Int → Bool
  llamaSample : List Event → List Token → Token
  fnIn : List Event → List Token → Bool → Option (List Token)
  chInterject : List Event → ChanRecv

/-- How a run of `Infer` ended: `return nil`, the error of `Eval`, the
"prompt is too long" error, or a run-time panic. -/
inductive Outcome where
  | ok
  | evalFailed
  | promptTooLong
  | panic
deriving DecidableEq, Repr

/-- The program points of the loop of `Infer` (lines 57-124), in source order. -/
inductive Phase where
  | loopCond
  | evaluate
  | evalCall
  | advance
  | sample
  | eosCheck
  | populate
  | provide
  | interject
  | halted (o : Outcome)
deriving DecidableEq, Repr

/-- Whether the run has ended. -/
def Phase.isHalted : Phase → Bool
  | Phase.halted _ => true
  | _ => false

/-- The local variables of `Infer` and `li.llama.Params.NKeep`, the trace of
the calls made so far, and three ghost logs that the loop only writes: `batches`
(the batches made by the populate step), `fed` (every token put into `embed`
by the populate and sample steps) and `swaps` (the number of swaps done). -/
structure State where
  pc : Phase
  NKeep : Int
  nProcessed : Int
  nRemain : Int
  lastNTokens : List Token
  embed : List Token
  embedInput : List Token
  trace : List Event
  batches : List (List Token)
  fed : List Token
  swaps : Nat
deriving DecidableEq, Repr

/-! ## The operations -/

/-- The Go slice expression `xs[lo:hi]`; `none` is the bounds panic. Go
requires `0 ≤ lo ≤ hi ≤ cap(xs)`; in every slice expression of `inference.go`
the upper bound is `len(xs)`, `len(xs) - len(embed)` or
`min(NBatch, len(xs))`, never more than `len(xs)`, so that the test against
the length decides the same. -/
def goSlice (xs : List Token) (lo hi : Int) : Option (List Token) :=
  if 0 ≤ lo ∧ lo ≤ hi ∧ hi ≤ (xs.length : Int) then
    some ((xs.take hi.toNat).drop lo.toNat)
  else none

/-- `DefaultSwapContext` (lines 25-31). `paramsNKeep` is
`li.llama.Params.NKeep`. `nleft/2` is Go's truncating division. The result is
`(nKeep, kept)` and the value of `*lastNTokens` after the call: `keep` is a
slice of `*lastNTokens` that ends `len(*embed)` before its end, so the
`append` has the capacity to write `*embed` in place over the last
`len(*embed)` elements of `*lastNTokens`. -/
def DefaultSwapContext (paramsNKeep : Int) (nCtx nProcessed nKeep : Int)
    (lastNTokens embed : List Token) : Option (Int × List Token × List Token) :=
  let nleft := nProcessed - paramsNKeep
  match goSlice lastNTokens (nCtx - Int.tdiv nleft 2 - (embed.length : Int))
      ((lastNTokens.length : Int) - (embed.length : Int)) with
  | none => none
  | some keep =>
    let kept := keep ++ embed
    some (nKeep, kept, lastNTokens.take (lastNTokens.length - embed.length) ++ embed)

/-- `Llama.Eval` (llama.go 127-136): `&tokens[0]` panics on an empty slice;
otherwise the result of `llama_eval`. -/
def Eval (W : World) (trace : List Event) (tokens : List Token) (nPast nThreads : Int) :
    Option Bool :=
  if tokens.length = 0 then none else some (W.llamaEval trace tokens nPast nThreads)

/-- `Llama.SampleTopPTopK` (llama.go 138-150): `&tokens[0]` panics on an
empty slice; otherwise the token chosen by the C sampler. -/
def SampleTopPTopK (W : World) (trace : List Event) (tokens : List Token) : Option Token :=
  if tokens.length = 0 then none else some (W.llamaSample trace tokens)

/-- `appendInput` (lines 129-139); `none` is a nil `in`. The pointer
`embedInput` is the address of a local variable and is never nil. -/
def appendInput (inp : Option (List Token)) (embedInput : List Token) : List Token :=
  match inp with
  | none => []
  | some i => if i.length > 0 then embedInput ++ i else embedInput

/-- The state with the run ended. -/
def State.halt (s : State) (o : Outcome) : State := { s with pc := Phase.halted o }

/-- The call `fnIn(&lastNTokens, interject)` followed by the nil test and
`appendInput` (lines 105-109 and 116-120); `next` is where the loop goes on. -/
def callInput (W : World) (interject : Bool) (next : Phase) (s : State) : State :=
  let r := W.fnIn s.trace s.lastNTokens interject
  let s1 : State := { s with trace := s.trace ++ [Event.input s.lastNTokens interject r] }
  match r with
  | none => s1.halt Outcome.ok
  | some i => { s1 with embedInput := appendInput (some i) s.embedInput, pc := next }

/-- One program point of the loop of `Infer` (lines 57-124). -/
def step (W : World) (p : LLamaParams) (nCtx : Int) (s : State) : State :=
  match s.pc with
  | Phase.loopCond =>
    -- for nRemain != 0
    if s.nRemain ≠ 0 then { s with pc := Phase.evaluate } else s.halt Outcome.ok
  | Phase.evaluate =>
    -- lines 59-64
    if s.embed.length > 0 then
      if s.nProcessed + (s.embed.length : Int) > nCtx then
        match DefaultSwapContext s.NKeep nCtx s.nProcessed s.NKeep s.lastNTokens s.embed with
        | none => s.halt Outcome.panic
        | some (n, e, l) =>
          { s with nProcessed := n, embed := e, lastNTokens := l, swaps := s.swaps + 1,
                   pc := Phase.evalCall }
      else { s with pc := Phase.evalCall }
    else { s with pc := Phase.advance }
  | Phase.evalCall =>
    -- lines 66-68
    match Eval W s.trace s.embed s.nProcessed p.NThreads with
    | none => s.halt Outcome.panic
    | some ok =>
      let s1 : State :=
        { s with trace := s.trace ++ [Event.eval s.embed s.nProcessed p.NThreads ok] }
      if ok then { s1 with pc := Phase.advance } else s1.halt Outcome.evalFailed
  | Phase.advance =>
    -- lines 71-72
    { s with nProcessed := s.nProcessed + (s.embed.length : Int), embed := [],
             pc := Phase.sample }
  | Phase.sample =>
    -- lines 75-87
    if s.embedInput.length = 0 then
      match goSlice s.lastNTokens (nCtx - p.RepeatLastN) s.lastNTokens.length with
      | none => s.halt Outcome.panic
      | some w =>
        match SampleTopPTopK W s.trace w with
        | none => s.halt Outcome.panic
        | some id =>
          let s1 : State := { s with trace := s.trace ++ [Event.sample w id] }
          match goSlice s.lastNTokens 1 s.lastNTokens.length with
          | none => s1.halt Outcome.panic
          | some l =>
            { s1 with lastNTokens := l ++ [id], embed := [id],
                      nRemain := if s.nRemain > 0 then s.nRemain - 1 else s.nRemain,
                      trace := s1.trace ++ [Event.output id],
                      fed := s.fed ++ [id], pc := Phase.eosCheck }
    else { s with pc := Phase.eosCheck }
  | Phase.eosCheck =>
    -- lines 90-92
    if s.embed.length > 0 ∧ s.embed.getLast? = some W.TokenEOS then s.halt Outcome.ok
    else { s with pc := Phase.populate }
  | Phase.populate =>
    -- lines 95-101; int(math.Min(float64(a), float64(b))) is the minimum of the two ints
    -- (a length converts to float64 exactly)
    if s.embedInput.length > 0 then
      let batchSize : Int := min p.NBatch (s.embedInput.length : Int)
      match goSlice s.embedInput 0 batchSize with
      | none => s.halt Outcome.panic
      | some e =>
        match goSlice s.lastNTokens batchSize s.lastNTokens.length with
        | none => s.halt Outcome.panic
        | some l =>
          match goSlice s.embedInput batchSize s.embedInput.length with
          | none => s.halt Outcome.panic
          | some q =>
            { s with embed := e, lastNTokens := l ++ e, embedInput := q,
                     batches := s.batches ++ [e], fed := s.fed ++ e, pc := Phase.provide }
    else { s with pc := Phase.provide }
  | Phase.provide =>
    -- lines 104-110
    if s.embedInput.length = 0 then callInput W false Phase.interject s
    else { s with pc := Phase.interject }
  | Phase.interject =>
    -- lines 113-123
    let r := W.chInterject s.trace
    let s1 : State := { s with trace := s.trace ++ [Event.recv r] }
    match r with
    | ChanRecv.value => callInput W true Phase.loopCond s1
    | _ => { s1 with pc := Phase.loopCond }
  | Phase.halted _ => s

/-- The state after `n` program points. -/
def run (W : World) (p : LLamaParams) (nCtx : Int) : Nat → State → State
  | 0, s => s
  | n + 1, s => run W p nCtx n (step W p nCtx s)

/-- Lines 44-55 of `Infer`: the locals, the allocation of the history buffer
(`make` panics on a negative length), the length check of the prompt and the
clamping of `li.llama.Params.NKeep`. -/
def inferInit (p : LLamaParams) (nPredict : Int) (embedInput : List Token) (nCtx : Int) :
    State :=
  let s0 : State :=
    { pc := Phase.loopCond, NKeep := p.NKeep, nProcessed := 0, nRemain := nPredict,
      lastNTokens := List.replicate nCtx.toNat 0, embed := [], embedInput := embedInput,
      trace := [], batches := [], fed := [], swaps := 0 }
  if nCtx < 0 then s0.halt Outcome.panic
  else if (embedInput.length : Int) > nCtx - 4 then s0.halt Outcome.promptTooLong
  else if p.NKeep < 0 ∨ p.NKeep > (embedInput.length : Int) then
    { s0 with NKeep := (embedInput.length : Int) }
  else s0

/-- `Infer` (lines 43-127) after `fuel` program points of its loop. The
callbacks `fnIn` and `chInterject` are those of `W`; `fnOut` is the
`Event.output` of the trace; the parameter `fnSwapContext` is not used by the
source, which calls `li.DefaultSwapContext`. -/
def Infer (W : World) (p : LLamaParams) (nPredict : Int) (embedInput : List Token)
    (nCtx : Int) (fuel : Nat) : State :=
  run W p nCtx fuel (inferInit p nPredict embedInput nCtx)

/-- `InferPromptOnly` (lines 37-41): the input provider always returns the
empty slice. -/
def InferPromptOnly (W : World) (p : LLamaParams) (embedInput : List Token) (fuel : Nat) :
    State :=
  Infer { W with fnIn := fun _ _ _ => some [] } p p.NPredict embedInput W.ContextSize fuel

/-- `InferInteractive` (lines 33-35): unbounded (`nPredict = -1`), with the
input provider and the channel of `W`. -/
def InferInteractive (W : World) (p : LLamaParams) (embedInput : List Token) (fuel : Nat) :
    State :=
  Infer W p (-1) embedInput W.ContextSize fuel

/-! ## What a trace shows -/

/-- The tokens passed to `fnOut`, in order. -/
def outputs (tr : List Event) : List Token :=
  tr.filterMap fun e => match e with
    | Event.output id => some id
    | _ => none

/-- The tokens returned by `SampleTopPTopK`, in order. -/
def sampled (tr : List Event) : List Token :=
  tr.filterMap fun e => match e with
    | Event.sample _ id => some id
    | _ => none

/-- The batches passed to `Eval`, in order. -/
def evalBatches (tr : List Event) : List (List Token) :=
  tr.filterMap fun e => match e with
    | Event.eval t _ _ _ => some t
    | _ => none

/-- The results of `fnIn` that were appended to the pending queue, in order. -/
def inputsAppended (tr : List Event) : List (List Token) :=
  tr.filterMap fun e => match e with
    | Event.input _ _ (some i) => some i
    | _ => none

/-- The history buffers passed to `fnIn`, in order. -/
def inputBuffers (tr : List Event) : List (List Token) :=
  tr.filterMap fun e => match e with
    | Event.input b _ _ => some b
    | _ => none

/-- The `(batch, n_past)` arguments of the calls of `Eval`, in order. -/
def evalCalls (tr : List Event) : List (List Token × Int) :=
  tr.filterMap fun e => match e with
    | Event.eval t n _ _ => some (t, n)
    | _ => none

/-! ## Transitions and invariants -/

/-- The transitions of `step`, one constructor for each branch of the loop
body; `panic` stands for every branch that panics before it changed the
state. `step_trans`
shows that `step` always takes one of them. -/
inductive Trans (W : World) (p : LLamaParams) (nCtx : Int) (s : State) : State → Prop where
  | stay (o : Outcome) : s.pc = Phase.halted o → Trans W p nCtx s s
  | panic : (∀ o, s.pc ≠ Phase.halted o) → Trans W p nCtx s (s.halt Outcome.panic)
  | loopEnd : s.pc = Phase.loopCond → s.nRemain = 0 → Trans W p nCtx s (s.halt Outcome.ok)
  | eosStop : s.pc = Phase.eosCheck → s.embed ≠ [] → s.embed.getLast? = some W.TokenEOS →
      Trans W p nCtx s (s.halt Outcome.ok)
  | loopGo : s.pc = Phase.loopCond → s.nRemain ≠ 0 →
      Trans W p nCtx s { s with pc := Phase.evaluate }
  | evalSkip : s.pc = Phase.evaluate → s.embed = [] →
      Trans W p nCtx s { s with pc := Phase.advance }
  | evalFits : s.pc = Phase.evaluate → s.embed ≠ [] →
      s.nProcessed + (s.embed.length : Int) ≤ nCtx →
      Trans W p nCtx s { s with pc := Phase.evalCall }
  | swap (keep : List Token) : s.pc = Phase.evaluate → s.embed ≠ [] →
      s.nProcessed + (s.embed.length : Int) > nCtx →
      goSlice s.lastNTokens (nCtx - Int.tdiv (s.nProcessed - s.NKeep) 2 - (s.embed.length : Int))
        ((s.lastNTokens.length : Int) - (s.embed.length : Int)) = some keep →
      Trans W p nCtx s
        { s with nProcessed := s.NKeep, embed := keep ++ s.embed,
                 lastNTokens := s.lastNTokens.take (s.lastNTokens.length - s.embed.length) ++ s.embed,
                 swaps := s.swaps + 1, pc := Phase.evalCall }
  | evalDone (ok : Bool) (pc : Phase) : s.pc = Phase.evalCall → s.embed ≠ [] →
      W.llamaEval s.trace s.embed s.nProcessed p.NThreads = ok →
      pc = (if ok then Phase.advance else Phase.halted Outcome.evalFailed) →
      Trans W p nCtx s
        { s with trace := s.trace ++ [Event.eval s.embed s.nProcessed p.NThreads ok], pc := pc }
  | advance : s.pc = Phase.advance →
      Trans W p nCtx s
        { s with nProcessed := s.nProcessed + (s.embed.length : Int), embed := [],
                 pc := Phase.sample }
  | sampleSkip : s.pc = Phase.sample → s.embedInput ≠ [] →
      Trans W p nCtx s { s with pc := Phase.eosCheck }
  | samplePanic (w : List Token) : s.pc = Phase.sample → s.embedInput = [] →
      Trans W p nCtx s
        { s with trace := s.trace ++ [Event.sample w (W.llamaSample s.trace w)],
                 pc := Phase.halted Outcome.panic }
  | sampleDone (w : List Token) (nRemain : Int) : s.pc = Phase.sample → s.embedInput = [] →
      goSlice s.lastNTokens (nCtx - p.RepeatLastN) s.lastNTokens.length = some w → w ≠ [] →
      1 ≤ s.lastNTokens.length →
      nRemain = (if s.nRemain > 0 then s.nRemain - 1 else s.nRemain) →
      Trans W p nCtx s
        { s with lastNTokens := s.lastNTokens.drop 1 ++ [W.llamaSample s.trace w],
                 embed := [W.llamaSample s.trace w], nRemain := nRemain,
                 trace := s.trace ++ [Event.sample w (W.llamaSample s.trace w)] ++
                   [Event.output (W.llamaSample s.trace w)],
                 fed := s.fed ++ [W.llamaSample s.trace w], pc := Phase.eosCheck }
  | eosGo : s.pc = Phase.eosCheck → (s.embed = [] ∨ s.embed.getLast? ≠ some W.TokenEOS) →
      Trans W p nCtx s { s with pc := Phase.populate }
  | popSkip : s.pc = Phase.populate → s.embedInput = [] →
      Trans W p nCtx s { s with pc := Phase.provide }
  | popDone (b : Nat) : s.pc = Phase.populate → s.embedInput ≠ [] →
      (b : Int) = min p.NBatch (s.embedInput.length : Int) → b ≤ s.lastNTokens.length →
      Trans W p nCtx s
        { s with embed := s.embedInput.take b,
                 lastNTokens := s.lastNTokens.drop b ++ s.embedInput.take b,
                 embedInput := s.embedInput.drop b,
                 batches := s.batches ++ [s.embedInput.take b],
                 fed := s.fed ++ s.embedInput.take b, pc := Phase.provide }
  | provSkip : s.pc = Phase.provide → s.embedInput ≠ [] →
      Trans W p nCtx s { s with pc := Phase.interject }
  | provEnd : s.pc = Phase.provide → s.embedInput = [] →
      W.fnIn s.trace s.lastNTokens false = none →
      Trans W p nCtx s
        { s with trace := s.trace ++ [Event.input s.lastNTokens false none],
                 pc := Phase.halted Outcome.ok }
  | provIn (i : List Token) : s.pc = Phase.provide → s.embedInput = [] →
      W.fnIn s.trace s.lastNTokens false = some i →
      Trans W p nCtx s
        { s with trace := s.trace ++ [Event.input s.lastNTokens false (some i)],
                 embedInput := s.embedInput ++ i, pc := Phase.interject }
  | intNone (r : ChanRecv) : s.pc = Phase.interject → W.chInterject s.trace = r →
      r ≠ ChanRecv.value →
      Trans W p nCtx s { s with trace := s.trace ++ [Event.recv r], pc := Phase.loopCond }
  | intEnd : s.pc = Phase.interject → W.chInterject s.trace = ChanRecv.value →
      W.fnIn (s.trace ++ [Event.recv ChanRecv.value]) s.lastNTokens true = none →
      Trans W p nCtx s
        { s with trace := s.trace ++ [Event.recv ChanRecv.value] ++
                   [Event.input s.lastNTokens true none],
                 pc := Phase.halted Outcome.ok }
  | intIn (i : List Token) : s.pc = Phase.interject →
      W.chInterject s.trace = ChanRecv.value →
      W.fnIn (s.trace ++ [Event.recv ChanRecv.value]) s.lastNTokens true = some i →
      Trans W p nCtx s
        { s with trace := s.trace ++ [Event.recv ChanRecv.value] ++
                   [Event.input s.lastNTokens true (some i)],
                 embedInput := s.embedInput ++ i, pc := Phase.loopCond }

/-- The buffer invariant of one state: the history buffer, and every buffer
handed to `fnIn` so far, has length `nCtx`. -/
def BufferInv (nCtx : Int) (s : State) : Prop :=
  (s.lastNTokens.length : Int) = nCtx ∧ ∀ b ∈ inputBuffers s.trace, (b.length : Int) = nCtx

/-- The partition invariant of one state: the batches made so far followed by
the pending queue are the prompt followed by the inputs appended so far. -/
def PartitionInv (prompt : List Token) (s : State) : Prop :=
  s.batches.flatten ++ s.embedInput = prompt ++ (inputsAppended s.trace).flatten

/-- What a program point requires of the tokens `pend` that were put into
`embed` and are not yet evaluated: they are `embed` (the tail of `embed` after
a swap), and nothing is pending between the call of `Eval` and the sample
step, nor when the populate step refills `embed`. -/
def pendingOK (s : State) (pend : List Token) : Prop :=
  match s.pc with
  | Phase.evalCall => pend <:+ s.embed
  | Phase.advance => pend = []
  | Phase.sample => pend = [] ∧ s.embed = []
  | Phase.eosCheck => pend = s.embed ∧ (s.embedInput ≠ [] → s.embed = [])
  | Phase.populate => pend = s.embed ∧ (s.embedInput ≠ [] → s.embed = [])
  | Phase.halted _ => True
  | _ => pend = s.embed

/-- The feeding invariant of one state: the tokens put into `embed` so far
are, in order, chunks that were each the tail of one call of `Eval`, followed
by the tokens still pending. -/
def FedInv (s : State) : Prop :=
  ∃ (bs : List (List Token)) (pend : List Token),
    List.Forall₂ (fun b e => b <:+ e) bs (evalBatches s.trace) ∧
    s.fed = bs.flatten ++ pend ∧ pendingOK s pend

/-- All tokens passed to `Eval` so far, in order. -/
def evalTokens (tr : List Event) : List Token := (evalBatches tr).flatten

/-- What holds at a program point as long as no swap was done: the tokens
put into `embed` are the evaluated ones followed by `embed`, and `nProcessed`
counts the evaluated ones. -/
def unswapped (s : State) : Prop :=
  match s.pc with
  | Phase.advance =>
    s.fed = evalTokens s.trace ∧
      s.nProcessed + (s.embed.length : Int) = ((evalTokens s.trace).length : Int)
  | Phase.sample =>
    s.fed = evalTokens s.trace ∧ s.nProcessed = ((evalTokens s.trace).length : Int) ∧
      s.embed = []
  | Phase.eosCheck =>
    s.fed = evalTokens s.trace ++ s.embed ∧
      s.nProcessed = ((evalTokens s.trace).length : Int) ∧ (s.embedInput ≠ [] → s.embed = [])
  | Phase.populate =>
    s.fed = evalTokens s.trace ++ s.embed ∧
      s.nProcessed = ((evalTokens s.trace).length : Int) ∧ (s.embedInput ≠ [] → s.embed = [])
  | Phase.halted _ => True
  | _ =>
    s.fed = evalTokens s.trace ++ s.embed ∧
      s.nProcessed = ((evalTokens s.trace).length : Int)

/-- The invariant of a run before its first swap: the history buffer is the
tail of the initial zeros followed by the tokens put into `embed` so far. -/
def FirstSwapInv (nCtx : Int) (s : State) : Prop :=
  s.swaps = 0 →
    s.lastNTokens <:+ (List.replicate nCtx.toNat (0 : Token) ++ s.fed) ∧ unswapped s

/-- Every call of `Eval` in the trace stayed within the context:
`n_past + len(tokens) ≤ nCtx`. -/
def EvalBound (nCtx : Int) (tr : List Event) : Prop :=
  ∀ c ∈ evalCalls tr, c.2 + (c.1.length : Int) ≤ nCtx

instance EvalBound.decidable (nCtx : Int) (tr : List Event) : Decidable (EvalBound nCtx tr) := by
  unfold EvalBound
  exact inferInstance

/-- What a program point of a run whose input provider returns no token
requires of the counters: the pending batch and the queue fit into the
context, or the queue is empty and the pending batch is one sampled token. -/
def fitsContext (nCtx : Int) (s : State) : Prop :=
  match s.pc with
  | Phase.evalCall =>
    s.nProcessed + (s.embed.length : Int) ≤ nCtx ∧
      (s.embedInput = [] ∨
        s.nProcessed + (s.embed.length : Int) + (s.embedInput.length : Int) ≤ nCtx)
  | Phase.advance =>
    s.nProcessed + (s.embed.length : Int) ≤ nCtx ∧
      (s.embedInput = [] ∨
        s.nProcessed + (s.embed.length : Int) + (s.embedInput.length : Int) ≤ nCtx)
  | Phase.sample =>
    s.embed = [] ∧
      (s.embedInput = [] ∨ s.nProcessed + (s.embedInput.length : Int) ≤ nCtx)
  | Phase.halted _ => True
  | _ =>
    s.nProcessed + (s.embed.length : Int) + (s.embedInput.length : Int) ≤ nCtx ∨
      (s.embedInput = [] ∧ s.embed.length = 1)

/-- The capacity invariant of a run whose input provider returns no token. -/
def CapacityInv (nCtx : Int) (s : State) : Prop :=
  (s.lastNTokens.length : Int) = nCtx ∧ 0 ≤ s.NKeep ∧ s.NKeep ≤ nCtx - 4 ∧
    s.nProcessed ≤ nCtx ∧ EvalBound nCtx s.trace ∧ fitsContext nCtx s

/-- The number of tokens handed to the run so far: the prompt and the
results of the input provider. -/
def tokensGiven (prompt : List Token) (tr : List Event) : Int :=
  (prompt.length : Int) + ((inputsAppended tr).flatten.length : Int)

/-- The counters of a run before its first sample, when everything given to
it fits into the context: the evaluated tokens, the pending batch and the
queue are at most the tokens given, and these at most `nCtx`. -/
def fitsGiven (nCtx : Int) (prompt : List Token) (s : State) : Prop :=
  0 ≤ s.nProcessed ∧
    s.nProcessed + (s.embed.length : Int) + (s.embedInput.length : Int) ≤
      tokensGiven prompt s.trace ∧
    tokensGiven prompt s.trace ≤ nCtx

/-- The invariant of a run whose sampler returns the end-of-text token and
whose input fits into the context: no panic, and the run is before its first
sample or has just sampled the end-of-text token. -/
def FitInv (W : World) (nCtx : Int) (prompt : List Token) (s : State) : Prop :=
  (s.lastNTokens.length : Int) = nCtx ∧
    match s.pc with
    | Phase.halted o => o ≠ Outcome.panic
    | Phase.eosCheck =>
      s.embed = [W.TokenEOS] ∨ (s.embed = [] ∧ fitsGiven nCtx prompt s)
    | Phase.sample => s.embed = [] ∧ fitsGiven nCtx prompt s
    | Phase.evalCall => s.embed ≠ [] ∧ fitsGiven nCtx prompt s
    | _ => fitsGiven nCtx prompt s

/-- A state at the head of the loop of a run that passed the length check:
a full-length history buffer and a keep count within `0 .. nCtx - 4`. -/
def LoopHead (nCtx : Int) (s : State) : Prop :=
  s.pc = Phase.loopCond ∧ (s.lastNTokens.length : Int) = nCtx ∧ 0 ≤ s.NKeep ∧
    s.NKeep ≤ nCtx - 4 ∧ 0 ≤ s.nProcessed

/-! ## Concrete worlds -/

/-- A stub engine with context capacity 8 and end-of-text token 2: `Eval`
always succeeds, the sampler returns 9, 10, 11, ... in turn, the input
provider returns no token, and no interjection is signalled. -/
def stubWorld : World :=
  { ContextSize := 8, TokenEOS := 2,
    llamaEval := fun _ _ _ _ => true,
    llamaSample := fun tr _ => 9 + ((sampled tr).length : Int),
    fnIn := fun _ _ _ => some [],
    chInterject := fun _ => ChanRecv.empty }

/-- Parameters of the stub runs: repeat window 4, two tokens to predict, keep
count 0, batch size 8. -/
def stubParams : LLamaParams :=
  { RepeatLastN := 4, NPredict := 2, NKeep := 0, NBatch := 8, NThreads := 4 }

/-- The stub engine with a sampler that always returns the end-of-text token. -/
def eosWorld : World := { stubWorld with llamaSample := fun _ _ => 2 }

/-- The stub engine with an input provider that returns the terminate signal
(a nil pointer). -/
def quitWorld : World := { eosWorld with fnIn := fun _ _ _ => none }

/-- The stub engine with an interactive input provider: the user types eight
tokens the first time the provider is called and nothing afterwards. -/
def chatWorld : World :=
  { stubWorld with
    fnIn := fun tr _ _ =>
      if inputBuffers tr = [] then some [11, 12, 13, 14, 15, 16, 17, 18] else some [] }

/-- The stub engine with the end-of-text sampler and an interactive input
provider: the user types two tokens the first time the provider is called and
nothing afterwards. -/
def eosChatWorld : World :=
  { eosWorld with
    fnIn := fun tr _ _ => if inputsAppended tr = [] then some [11, 12] else some [] }

/-- The stub engine with the end-of-text sampler and an input provider that
returns one more token at every call. -/
def feedWorld : World := { eosWorld with fnIn := fun _ _ _ => some [11] }

/-- The stub engine with the end-of-text sampler and an input provider that
returns nine tokens, more than the context holds, at its first call. -/
def floodWorld : World :=
  { eosWorld with
    fnIn := fun tr _ _ =>
      if inputsAppended tr = [] then some [11, 12, 13, 14, 15, 16, 17, 18, 19] else some [] }

/-- The stub parameters with twelve tokens to predict: more than the context
can hold, so that a swap happens. -/
def longParams : LLamaParams := { stubParams with NPredict := 12 }

/-- The stub parameters with a keep count of one token. -/
def keepParams : LLamaParams := { stubParams with NKeep := 1 }

/-- The stub parameters with an empty repeat window (`--repeat_last_n 0`). -/
def zeroWindowParams : LLamaParams := { stubParams with RepeatLastN := 0 }

/-- The stub parameters with batch size 0. -/
def zeroBatchParams : LLamaParams := { stubParams with NBatch := 0 }

/-- The stub parameters with a negative batch size. -/
def negativeBatchParams : LLamaParams := { stubParams with NBatch := -1 }

/-- The stub parameters with a repeat window larger than the context. -/
def wideWindowParams : LLamaParams := { stubParams with RepeatLastN := 9 }

/-- The stub parameters with a batch size of 16, larger than the context. -/
def wideBatchParams : LLamaParams := { stubParams with NBatch := 16 }

/-! ## Go slices -/

theorem goSlice_eq_some {xs : List Token} {lo hi : Int} (h0 : 0 ≤ lo) (h1 : lo ≤ hi)
    (h2 : hi ≤ (xs.length : Int)) :
    goSlice xs lo hi = some ((xs.take hi.toNat).drop lo.toNat) := by
  simp [goSlice, h0, h1, h2]

theorem goSlice_some {xs ys : List Token} {lo hi : Int} (h : goSlice xs lo hi = some ys) :
    (0 ≤ lo ∧ lo ≤ hi ∧ hi ≤ (xs.length : Int)) ∧ ys = (xs.take hi.toNat).drop lo.toNat := by
  unfold goSlice at h
  split at h
  · next hc => exact ⟨hc, by simpa using h.symm⟩
  · simp at h

theorem goSlice_length {xs ys : List Token} {lo hi : Int} (h : goSlice xs lo hi = some ys) :
    (ys.length : Int) = hi - lo := by
  obtain ⟨⟨h0, h1, h2⟩, rfl⟩ := goSlice_some h
  simp only [List.length_drop, List.length_take]
  omega

/-- The slice `xs[lo:]`. -/
theorem goSlice_to_end {xs ys : List Token} {lo : Int}
    (h : goSlice xs lo (xs.length : Int) = some ys) : ys = xs.drop lo.toNat := by
  obtain ⟨_, rfl⟩ := goSlice_some h
  simp

/-- The slice `xs[:hi]`. -/
theorem goSlice_from_start {xs ys : List Token} {hi : Int}
    (h : goSlice xs 0 hi = some ys) : ys = xs.take hi.toNat := by
  obtain ⟨_, rfl⟩ := goSlice_some h
  simp

/-! ## The context swap -/

/-- What `DefaultSwapContext` returns when it does not panic. -/
theorem DefaultSwapContext_some {pk nCtx nProcessed nKeep : Int} {lastNTokens embed : List Token}
    {r : Int × List Token × List Token}
    (h : DefaultSwapContext pk nCtx nProcessed nKeep lastNTokens embed = some r) :
    ∃ keep, goSlice lastNTokens (nCtx - Int.tdiv (nProcessed - pk) 2 - (embed.length : Int))
        ((lastNTokens.length : Int) - (embed.length : Int)) = some keep ∧
      r = (nKeep, keep ++ embed,
        lastNTokens.take (lastNTokens.length - embed.length) ++ embed) := by
  unfold DefaultSwapContext at h
  simp only at h
  split at h
  · simp at h
  · next keep hk => exact ⟨keep, hk, by simpa using h.symm⟩

/-- C1. Context swap result: a call of `DefaultSwapContext` as `Infer` makes it
(`li.llama.Params.NKeep` and `nKeep` both `K`, a history buffer of length
`C = nCtx`, `0 ≤ K ≤ P`, an incoming batch of length `L ≥ 1` with `P + L > C`
and `⌊(P-K)/2⌋ + L ≤ C`) returns `K` as the new processed count and an
incoming batch of length `L + ⌊(P-K)/2⌋` whose last `L` elements are the
original batch. -/
theorem DefaultSwapContext_result (C P K : Int) (lastNTokens embed : List Token)
    (hlen : (lastNTokens.length : Int) = C) (hK : 0 ≤ K) (hKP : K ≤ P)
    (hL : 1 ≤ embed.length) (hover : P + (embed.length : Int) > C)
    (hfit : (P - K) / 2 + (embed.length : Int) ≤ C) :
    ∃ kept l, DefaultSwapContext K C P K lastNTokens embed = some (K, kept, l) ∧
      (kept.length : Int) = (embed.length : Int) + (P - K) / 2 ∧
      kept.drop (kept.length - embed.length) = embed := by
  have hdiv : Int.tdiv (P - K) 2 = (P - K) / 2 :=
    Int.tdiv_eq_ediv (by omega) (by decide)
  have hh : 0 ≤ (P - K) / 2 := Int.ediv_nonneg (by omega) (by decide)
  have hs := @goSlice_eq_some lastNTokens (C - (P - K) / 2 - (embed.length : Int))
    ((lastNTokens.length : Int) - (embed.length : Int)) (by omega) (by omega) (by omega)
  refine ⟨(lastNTokens.take ((lastNTokens.length : Int) - (embed.length : Int)).toNat).drop
      (C - (P - K) / 2 - (embed.length : Int)).toNat ++ embed,
    lastNTokens.take (lastNTokens.length - embed.length) ++ embed, ?_, ?_, ?_⟩
  · unfold DefaultSwapContext
    simp only [hdiv, hs]
  · simp only [List.length_append, List.length_drop, List.length_take]
    omega
  · simp only [List.length_append, Nat.add_sub_cancel]
    exact List.drop_left _ _

/-- The swap of C1 on a full context of capacity 8 with keep count 0 and the batch `[9]`. -/
theorem DefaultSwapContext_result_witness :
    ∃ kept l, DefaultSwapContext 0 8 8 0 [2, 3, 4, 5, 6, 7, 8, 9] [9] = some (0, kept, l) ∧
      (kept.length : Int) = (([9] : List Token).length : Int) + (8 - 0) / 2 ∧
      kept.drop (kept.length - ([9] : List Token).length) = [9] :=
  DefaultSwapContext_result 8 8 0 [2, 3, 4, 5, 6, 7, 8, 9] [9] (by decide) (by decide)
    (by decide) (by decide) (by decide) (by decide)

/-! ## One step of the loop -/

theorem appendInput_some (i q : List Token) : appendInput (some i) q = q ++ i := by
  unfold appendInput
  cases i <;> simp

theorem length_eq_zero_iff_nil {xs : List Token} : xs.length = 0 ↔ xs = [] :=
  List.length_eq_zero

theorem step_trans (W : World) (p : LLamaParams) (nCtx : Int) (s : State) :
    Trans W p nCtx s (step W p nCtx s) := by
  unfold step
  split
  · -- loopCond
    next h =>
    split
    · next h1 => exact Trans.loopGo h h1
    · next h1 => exact Trans.loopEnd h (by simpa using h1)
  · -- evaluate
    next h =>
    split
    · next h1 =>
      have hne : s.embed ≠ [] := by
        intro h0; simp [h0] at h1
      split
      · next h2 =>
        split
        · exact Trans.panic (by simp [h])
        · next n e l hsw =>
          obtain ⟨keep, hk, hr⟩ := DefaultSwapContext_some hsw
          simp only [Prod.mk.injEq] at hr
          obtain ⟨rfl, rfl, rfl⟩ := hr
          exact Trans.swap keep h hne h2 hk
      · next h2 => exact Trans.evalFits h hne (by omega)
    · next h1 =>
      exact Trans.evalSkip h (by simpa using h1)
  · -- evalCall
    next h =>
    unfold Eval
    split
    · exact Trans.panic (by simp [h])
    · next ok hok =>
      split at hok
      · simp at hok
      · next hne =>
        simp only [Option.some.injEq] at hok
        have hne' : s.embed ≠ [] := by simpa using hne
        cases ok
        · exact Trans.evalDone false _ h hne' hok (by simp)
        · exact Trans.evalDone true _ h hne' hok (by simp)
  · next h => exact Trans.advance h
  · -- sample
    next h =>
    split
    · next h1 =>
      have hq : s.embedInput = [] := by simpa using h1
      split
      · exact Trans.panic (by simp [h])
      · next w hw =>
        unfold SampleTopPTopK
        split
        · exact Trans.panic (by simp [h])
        · next id hid =>
          split at hid
          · simp at hid
          · next hwne =>
            simp only [Option.some.injEq] at hid
            subst hid
            have hwne' : w ≠ [] := by simpa using hwne
            split
            · exact Trans.samplePanic w h hq
            · next l hl =>
              have hb := (goSlice_some hl).1
              have hl' := goSlice_to_end hl
              subst hl'
              exact Trans.sampleDone w _ h hq hw hwne' (by omega) rfl
    · next h1 => exact Trans.sampleSkip h (by simpa using h1)
  · -- eosCheck
    next h =>
    split
    · next h1 =>
      exact Trans.eosStop h (by intro h0; simp [h0] at h1) h1.2
    · next h1 =>
      refine Trans.eosGo h ?_
      by_cases h0 : s.embed = []
      · exact Or.inl h0
      · refine Or.inr fun h2 => h1 ⟨?_, h2⟩
        exact List.length_pos.2 h0
  · -- populate
    next h =>
    split
    · next h1 =>
      have hq : s.embedInput ≠ [] := by
        intro h0; simp [h0] at h1
      dsimp only
      split
      · exact Trans.panic (by simp [h])
      · next e he =>
        split
        · exact Trans.panic (by simp [h])
        · next l hl =>
          split
          · exact Trans.panic (by simp [h])
          · next q hq' =>
            have hb1 := (goSlice_some he).1
            have hb2 := (goSlice_some hl).1
            have e1 := goSlice_from_start he
            have e2 := goSlice_to_end hl
            have e3 := goSlice_to_end hq'
            subst e1 e2 e3
            exact Trans.popDone (min p.NBatch (s.embedInput.length : Int)).toNat h hq
              (by omega) (by omega)
    · next h1 => exact Trans.popSkip h (by simpa using h1)
  · -- provide
    next h =>
    split
    · next h1 =>
      have hq : s.embedInput = [] := by simpa using h1
      unfold callInput
      dsimp only
      split
      · next hr => rw [hr]; exact Trans.provEnd h hq hr
      · next i hr => rw [hr, appendInput_some]; exact Trans.provIn i h hq hr
    · next h1 => exact Trans.provSkip h (by simpa using h1)
  · -- interject
    next h =>
    dsimp only
    split
    · next hv =>
      unfold callInput
      dsimp only
      split
      · next hr => rw [hr, hv]; rw [hv] at hr; exact Trans.intEnd h hv hr
      · next i hr => rw [hr, hv, appendInput_some]; rw [hv] at hr; exact Trans.intIn i h hv hr
    · next hv => exact Trans.intNone _ h rfl (by intro h0; exact hv h0)
  · next o h => exact Trans.stay o h

/-! ## Invariants of every run -/

theorem run_add (W : World) (p : LLamaParams) (nCtx : Int) (m n : Nat) (s : State) :
    run W p nCtx (m + n) s = run W p nCtx n (run W p nCtx m s) := by
  induction m generalizing s with
  | zero => simp [run]
  | succ m ih => rw [Nat.succ_add]; exact ih _

theorem run_succ (W : World) (p : LLamaParams) (nCtx : Int) (n : Nat) (s : State) :
    run W p nCtx (n + 1) s = step W p nCtx (run W p nCtx n s) := by
  rw [run_add]; rfl

theorem run_invariant (W : World) (p : LLamaParams) (nCtx : Int) (I : State → Prop)
    (hstep : ∀ s, I s → I (step W p nCtx s))
    (s : State) (h : I s) (n : Nat) : I (run W p nCtx n s) := by
  induction n generalizing s with
  | zero => exact h
  | succ n ih => exact ih _ (hstep s h)

theorem step_halted (W : World) (p : LLamaParams) (nCtx : Int) (s : State) (o : Outcome)
    (h : s.pc = Phase.halted o) : step W p nCtx s = s := by
  unfold step; rw [h]

theorem run_halted (W : World) (p : LLamaParams) (nCtx : Int) (s : State) (o : Outcome)
    (h : s.pc = Phase.halted o) (n : Nat) : run W p nCtx n s = s := by
  induction n with
  | zero => rfl
  | succ n ih => rw [run, step_halted W p nCtx s o h, ih]

theorem inputBuffers_append (a b : List Event) :
    inputBuffers (a ++ b) = inputBuffers a ++ inputBuffers b := by
  simp [inputBuffers, List.filterMap_append]

theorem step_BufferInv (W : World) (p : LLamaParams) (nCtx : Int) (s : State)
    (h : BufferInv nCtx s) : BufferInv nCtx (step W p nCtx s) := by
  have ht := step_trans W p nCtx s
  generalize step W p nCtx s = s' at ht
  obtain ⟨h1, h2⟩ := h
  have hin : ∀ (i : Bool) (r : Option (List Token)) (pre : List Event),
      (∀ b ∈ inputBuffers (s.trace ++ pre), (b.length : Int) = nCtx) →
      ∀ b ∈ inputBuffers (s.trace ++ pre ++ [Event.input s.lastNTokens i r]),
        (b.length : Int) = nCtx := by
    intro i r pre hp b hb
    rw [inputBuffers_append] at hb
    rcases List.mem_append.1 hb with hb | hb
    · exact hp b hb
    · simp [inputBuffers] at hb
      rw [hb]; exact h1
  have hrecv : ∀ r : ChanRecv, ∀ b ∈ inputBuffers (s.trace ++ [Event.recv r]),
      (b.length : Int) = nCtx := by
    intro r b hb
    rw [inputBuffers_append] at hb
    simp [inputBuffers] at hb
    exact h2 b (by simpa [inputBuffers] using hb)
  cases ht
  case swap keep hpc hne hov hk =>
    refine ⟨?_, h2⟩
    have hb := (goSlice_some hk).1
    simp only [List.length_append, List.length_take]
    omega
  case sampleDone w r hpc hq hw hwne hl hr =>
    refine ⟨?_, ?_⟩
    · simp only [List.length_append, List.length_drop, List.length_singleton]
      omega
    · intro b hb
      rw [inputBuffers_append, inputBuffers_append] at hb
      simp [inputBuffers] at hb
      exact h2 b (by simpa [inputBuffers] using hb)
  case samplePanic w hpc hq =>
    refine ⟨h1, ?_⟩
    intro b hb
    rw [inputBuffers_append] at hb
    simp [inputBuffers] at hb
    exact h2 b (by simpa [inputBuffers] using hb)
  case evalDone ok pc hpc hne hok hpc2 =>
    refine ⟨h1, ?_⟩
    intro b hb
    rw [inputBuffers_append] at hb
    simp [inputBuffers] at hb
    exact h2 b (by simpa [inputBuffers] using hb)
  case popDone b hpc hq hb hbl =>
    refine ⟨?_, h2⟩
    have hb2 : b ≤ s.embedInput.length := by omega
    simp only [List.length_append, List.length_drop, List.length_take]
    omega
  case provEnd hpc hq hr => exact ⟨h1, by simpa using hin false none [] (by simpa using h2)⟩
  case provIn i hpc hq hr => exact ⟨h1, by simpa using hin false (some i) [] (by simpa using h2)⟩
  case intNone r hpc hc hr => exact ⟨h1, hrecv r⟩
  case intEnd hpc hc hr => exact ⟨h1, hin true none _ (hrecv _)⟩
  case intIn i hpc hc hr => exact ⟨h1, hin true (some i) _ (hrecv _)⟩
  all_goals exact ⟨h1, h2⟩

theorem inferInit_BufferInv (p : LLamaParams) (nPredict : Int) (prompt : List Token)
    (nCtx : Int) (h : 0 ≤ nCtx) : BufferInv nCtx (inferInit p nPredict prompt nCtx) := by
  have hl : ((List.replicate nCtx.toNat (0 : Token)).length : Int) = nCtx := by
    simp only [List.length_replicate]; omega
  unfold inferInit
  dsimp only
  rw [if_neg (by omega)]
  split
  · exact ⟨hl, by simp [State.halt, inputBuffers]⟩
  · split
    · exact ⟨hl, by simp [inputBuffers]⟩
    · exact ⟨hl, by simp [inputBuffers]⟩

theorem Infer_BufferInv (W : World) (p : LLamaParams) (nPredict : Int) (prompt : List Token)
    (nCtx : Int) (h : 0 ≤ nCtx) (n : Nat) :
    BufferInv nCtx (Infer W p nPredict prompt nCtx n) :=
  run_invariant W p nCtx (BufferInv nCtx) (step_BufferInv W p nCtx) _
    (inferInit_BufferInv p nPredict prompt nCtx h) n

theorem isHalted_false {ph : Phase} (h : ph.isHalted = false) (o : Outcome) :
    ph ≠ Phase.halted o := by
  intro h0; rw [h0] at h; cases h

/-- A run that is still in its loop has a buffer: `make` did not panic. -/
theorem Infer_running_nCtx (W : World) (p : LLamaParams) (nPredict : Int)
    (prompt : List Token) (nCtx : Int) (n : Nat)
    (hrun : (Infer W p nPredict prompt nCtx n).pc.isHalted = false) : 0 ≤ nCtx := by
  by_contra hneg
  have h0 : (inferInit p nPredict prompt nCtx).pc = Phase.halted Outcome.panic := by
    unfold inferInit
    dsimp only
    rw [if_pos (by omega)]
    rfl
  apply isHalted_false hrun Outcome.panic
  unfold Infer
  rw [run_halted W p nCtx _ _ h0 n]
  exact h0

/-- C2. History buffer length invariant: at every program point of the loop
of a run of `Infer` with context capacity `nCtx` (the head of the loop, after
the sample step, after the populate step, after a swap, before the input
provider is called, ...) the history buffer `lastNTokens` has length exactly
`nCtx`, and so has every buffer that was handed to the input provider. -/
theorem history_buffer_length (W : World) (p : LLamaParams) (nPredict : Int)
    (prompt : List Token) (nCtx : Int) (n : Nat)
    (hrun : (Infer W p nPredict prompt nCtx n).pc.isHalted = false) :
    ((Infer W p nPredict prompt nCtx n).lastNTokens.length : Int) = nCtx ∧
      ∀ b ∈ inputBuffers (Infer W p nPredict prompt nCtx n).trace, (b.length : Int) = nCtx :=
  Infer_BufferInv W p nPredict prompt nCtx
    (Infer_running_nCtx W p nPredict prompt nCtx n hrun) n

/-- The invariant of C2 at the head of the second turn of the loop of the scenario run. -/
theorem history_buffer_length_witness :
    (Infer stubWorld stubParams 2 [1, 2] 8 8).pc.isHalted = false ∧
    (((Infer stubWorld stubParams 2 [1, 2] 8 8).lastNTokens.length : Int) = 8 ∧
      ∀ b ∈ inputBuffers (Infer stubWorld stubParams 2 [1, 2] 8 8).trace,
        (b.length : Int) = 8) :=
  ⟨by decide, history_buffer_length stubWorld stubParams 2 [1, 2] 8 8 (by decide)⟩

/-! ### The keep count -/

theorem step_NKeep (W : World) (p : LLamaParams) (nCtx : Int) (s : State) :
    (step W p nCtx s).NKeep = s.NKeep := by
  have ht := step_trans W p nCtx s
  generalize step W p nCtx s = s' at ht
  cases ht <;> rfl

theorem run_NKeep (W : World) (p : LLamaParams) (nCtx : Int) (n : Nat) (s : State) :
    (run W p nCtx n s).NKeep = s.NKeep :=
  run_invariant W p nCtx (fun t => t.NKeep = s.NKeep)
    (fun t ht => (step_NKeep W p nCtx t).trans ht) s rfl n

theorem inferInit_ok (p : LLamaParams) (nPredict : Int) (prompt : List Token) (nCtx : Int)
    (hlen : (prompt.length : Int) ≤ nCtx - 4) :
    inferInit p nPredict prompt nCtx =
      { pc := Phase.loopCond,
        NKeep := if 0 ≤ p.NKeep ∧ p.NKeep ≤ (prompt.length : Int) then p.NKeep
          else (prompt.length : Int),
        nProcessed := 0, nRemain := nPredict,
        lastNTokens := List.replicate nCtx.toNat 0, embed := [], embedInput := prompt,
        trace := [], batches := [], fed := [], swaps := 0 } := by
  unfold inferInit
  dsimp only
  rw [if_neg (by omega), if_neg (by omega)]
  by_cases hk : 0 ≤ p.NKeep ∧ p.NKeep ≤ (prompt.length : Int)
  · rw [if_neg (by omega), if_pos hk]
  · rw [if_pos (by omega), if_neg hk]

/-- The keep count of a run that passed the length check: clamped before the
loop, constant afterwards. -/
theorem Infer_NKeep (W : World) (p : LLamaParams) (nPredict : Int)
    (prompt : List Token) (nCtx : Int) (hlen : (prompt.length : Int) ≤ nCtx - 4) (n : Nat) :
    (Infer W p nPredict prompt nCtx 0).pc = Phase.loopCond ∧
    (Infer W p nPredict prompt nCtx 0).NKeep =
      (if 0 ≤ p.NKeep ∧ p.NKeep ≤ (prompt.length : Int) then p.NKeep
        else (prompt.length : Int)) ∧
    (Infer W p nPredict prompt nCtx n).NKeep = (Infer W p nPredict prompt nCtx 0).NKeep ∧
    0 ≤ (Infer W p nPredict prompt nCtx n).NKeep ∧
    (Infer W p nPredict prompt nCtx n).NKeep ≤ (prompt.length : Int) := by
  have h0 : Infer W p nPredict prompt nCtx 0 = inferInit p nPredict prompt nCtx := rfl
  have hn : (Infer W p nPredict prompt nCtx n).NKeep =
      (inferInit p nPredict prompt nCtx).NKeep := run_NKeep W p nCtx n _
  rw [h0, hn, inferInit_ok p nPredict prompt nCtx hlen]
  dsimp only
  refine ⟨rfl, rfl, rfl, ?_, ?_⟩ <;> split <;> omega

/-- C9. Keep-count clamping: in a run of `Infer` whose prompt passes the
length check, the keep count with which the loop starts is the requested
value when `0 ≤ requested ≤ len(prompt)` and `len(prompt)` otherwise
(requested negative or larger than the prompt); at every later point of the
run, whatever loop iterations and swaps were done, it still has that value,
and it satisfies `0 ≤ keepCount ≤ len(prompt)`. -/
theorem keep_count_clamped (W : World) (p : LLamaParams) (nPredict : Int)
    (prompt : List Token) (nCtx : Int) (hlen : (prompt.length : Int) ≤ nCtx - 4) (n : Nat) :
    (Infer W p nPredict prompt nCtx 0).pc = Phase.loopCond ∧
    (Infer W p nPredict prompt nCtx 0).NKeep =
      (if 0 ≤ p.NKeep ∧ p.NKeep ≤ (prompt.length : Int) then p.NKeep
        else (prompt.length : Int)) ∧
    (Infer W p nPredict prompt nCtx n).NKeep = (Infer W p nPredict prompt nCtx 0).NKeep ∧
    0 ≤ (Infer W p nPredict prompt nCtx n).NKeep ∧
    (Infer W p nPredict prompt nCtx n).NKeep ≤ (prompt.length : Int) :=
  Infer_NKeep W p nPredict prompt nCtx hlen n

/-- The clamping of C9 for a requested keep count of -1 and a prompt of two tokens. -/
theorem keep_count_clamped_witness :
    ((([1, 2] : List Token).length : Int) ≤ 8 - 4) ∧
    ((Infer stubWorld { stubParams with NKeep := -1 } 2 [1, 2] 8 0).pc = Phase.loopCond ∧
    (Infer stubWorld { stubParams with NKeep := -1 } 2 [1, 2] 8 0).NKeep =
      (if 0 ≤ ({ stubParams with NKeep := -1 } : LLamaParams).NKeep ∧
          ({ stubParams with NKeep := -1 } : LLamaParams).NKeep ≤
            (([1, 2] : List Token).length : Int)
        then ({ stubParams with NKeep := -1 } : LLamaParams).NKeep
        else (([1, 2] : List Token).length : Int)) ∧
    (Infer stubWorld { stubParams with NKeep := -1 } 2 [1, 2] 8 20).NKeep =
      (Infer stubWorld { stubParams with NKeep := -1 } 2 [1, 2] 8 0).NKeep ∧
    0 ≤ (Infer stubWorld { stubParams with NKeep := -1 } 2 [1, 2] 8 20).NKeep ∧
    (Infer stubWorld { stubParams with NKeep := -1 } 2 [1, 2] 8 20).NKeep ≤
      (([1, 2] : List Token).length : Int)) :=
  ⟨by decide, keep_count_clamped stubWorld { stubParams with NKeep := -1 } 2 [1, 2] 8
    (by decide) 20⟩

/-! ### The batches -/

theorem inputsAppended_append (a b : List Event) :
    inputsAppended (a ++ b) = inputsAppended a ++ inputsAppended b := by
  simp [inputsAppended, List.filterMap_append]

theorem step_PartitionInv (W : World) (p : LLamaParams) (nCtx : Int) (prompt : List Token)
    (s : State) (h : PartitionInv prompt s) : PartitionInv prompt (step W p nCtx s) := by
  have ht := step_trans W p nCtx s
  generalize step W p nCtx s = s' at ht
  unfold PartitionInv at h ⊢
  cases ht
  case popDone b hpc hq hb hbl =>
    simp only [List.flatten_append, List.flatten_cons, List.flatten_nil, List.append_nil,
      List.append_assoc, List.take_append_drop]
    exact h
  all_goals
    simp only [State.halt, inputsAppended_append, List.flatten_append, ← List.append_assoc, ← h]
  all_goals simp [inputsAppended]

theorem inferInit_PartitionInv (p : LLamaParams) (nPredict : Int) (prompt : List Token)
    (nCtx : Int) : PartitionInv prompt (inferInit p nPredict prompt nCtx) := by
  unfold inferInit PartitionInv
  dsimp only
  repeat' split
  all_goals simp [State.halt, inputsAppended]

theorem Infer_succ (W : World) (p : LLamaParams) (nPredict : Int) (prompt : List Token)
    (nCtx : Int) (n : Nat) :
    Infer W p nPredict prompt nCtx (n + 1) = step W p nCtx (Infer W p nPredict prompt nCtx n) :=
  run_succ W p nCtx n _

/-- The populate step (lines 95-101) on a non-empty queue: it panics or moves
the first `min(NBatch, len(embedInput))` tokens of the queue into `embed`. -/
theorem step_populate (W : World) (p : LLamaParams) (nCtx : Int) (s : State)
    (hpc : s.pc = Phase.populate) (hq : s.embedInput ≠ []) :
    (step W p nCtx s).pc = Phase.halted Outcome.panic ∨
    ∃ b : Nat, (b : Int) = min p.NBatch (s.embedInput.length : Int) ∧
      (step W p nCtx s).embed = s.embedInput.take b ∧
      (step W p nCtx s).embedInput = s.embedInput.drop b ∧
      (step W p nCtx s).batches = s.batches ++ [s.embedInput.take b] := by
  have hpos : s.embedInput.length > 0 := List.length_pos.2 hq
  unfold step
  rw [hpc]
  dsimp only
  rw [if_pos hpos]
  split
  · exact Or.inl rfl
  · next e he =>
    split
    · exact Or.inl rfl
    · next l hl =>
      split
      · exact Or.inl rfl
      · next q hq' =>
        have hb1 := (goSlice_some he).1
        have e1 := goSlice_from_start he
        have e3 := goSlice_to_end hq'
        exact Or.inr ⟨(min p.NBatch (s.embedInput.length : Int)).toNat, by omega, e1, e3,
          by rw [e1]⟩

/-- C5. Batch partition: in every run of `Infer` with batch size at least 1,
at every program point the batches made so far by the populate step, in
order, followed by the pending queue are the prompt followed by the results
of the input provider appended so far (no token omitted, duplicated or
reordered); and a populate step that makes a batch takes the first
`min(batchSize, len(queue))` tokens of the queue, at least one, and leaves the
rest in the queue. -/
theorem batch_partition (W : World) (p : LLamaParams) (nPredict : Int) (prompt : List Token)
    (nCtx : Int) (hb : 1 ≤ p.NBatch) (n : Nat) :
    (Infer W p nPredict prompt nCtx n).batches.flatten ++
        (Infer W p nPredict prompt nCtx n).embedInput =
      prompt ++ (inputsAppended (Infer W p nPredict prompt nCtx n).trace).flatten ∧
    ((Infer W p nPredict prompt nCtx n).pc = Phase.populate →
      (Infer W p nPredict prompt nCtx n).embedInput ≠ [] →
      (Infer W p nPredict prompt nCtx (n + 1)).pc ≠ Phase.halted Outcome.panic →
      (((Infer W p nPredict prompt nCtx (n + 1)).embed.length : Int) =
          min p.NBatch ((Infer W p nPredict prompt nCtx n).embedInput.length : Int) ∧
        1 ≤ (Infer W p nPredict prompt nCtx (n + 1)).embed.length ∧
        (Infer W p nPredict prompt nCtx (n + 1)).embed ++
            (Infer W p nPredict prompt nCtx (n + 1)).embedInput =
          (Infer W p nPredict prompt nCtx n).embedInput ∧
        (Infer W p nPredict prompt nCtx (n + 1)).batches =
          (Infer W p nPredict prompt nCtx n).batches ++
            [(Infer W p nPredict prompt nCtx (n + 1)).embed])) := by
  refine ⟨?_, ?_⟩
  · exact run_invariant W p nCtx (PartitionInv prompt) (step_PartitionInv W p nCtx prompt) _
      (inferInit_PartitionInv p nPredict prompt nCtx) n
  · intro hpc hq hnp
    rw [Infer_succ] at hnp ⊢
    generalize Infer W p nPredict prompt nCtx n = s at hpc hq hnp ⊢
    rcases step_populate W p nCtx s hpc hq with h | ⟨b, hb1, h1, h2, h3⟩
    · exact absurd h hnp
    · have hlen : 0 < s.embedInput.length := List.length_pos.2 hq
      have hble : b ≤ s.embedInput.length := by omega
      rw [h1, h2, h3]
      refine ⟨?_, ?_, List.take_append_drop _ _, rfl⟩
      · rw [List.length_take]; omega
      · rw [List.length_take]; omega

/-- The partition of C5 at the first populate step of a run on the prompt `[1, 2, 3, 4]`. -/
theorem batch_partition_witness :
    (1 ≤ longParams.NBatch ∧
      (Infer stubWorld longParams 12 [1, 2, 3, 4] 8 5).pc = Phase.populate ∧
      (Infer stubWorld longParams 12 [1, 2, 3, 4] 8 5).embedInput ≠ [] ∧
      (Infer stubWorld longParams 12 [1, 2, 3, 4] 8 (5 + 1)).pc ≠
        Phase.halted Outcome.panic) ∧
    ((Infer stubWorld longParams 12 [1, 2, 3, 4] 8 5).batches.flatten ++
        (Infer stubWorld longParams 12 [1, 2, 3, 4] 8 5).embedInput =
      [1, 2, 3, 4] ++
        (inputsAppended (Infer stubWorld longParams 12 [1, 2, 3, 4] 8 5).trace).flatten) ∧
    (((Infer stubWorld longParams 12 [1, 2, 3, 4] 8 (5 + 1)).embed.length : Int) =
        min longParams.NBatch
          ((Infer stubWorld longParams 12 [1, 2, 3, 4] 8 5).embedInput.length : Int) ∧
      1 ≤ (Infer stubWorld longParams 12 [1, 2, 3, 4] 8 (5 + 1)).embed.length ∧
      (Infer stubWorld longParams 12 [1, 2, 3, 4] 8 (5 + 1)).embed ++
          (Infer stubWorld longParams 12 [1, 2, 3, 4] 8 (5 + 1)).embedInput =
        (Infer stubWorld longParams 12 [1, 2, 3, 4] 8 5).embedInput ∧
      (Infer stubWorld longParams 12 [1, 2, 3, 4] 8 (5 + 1)).batches =
        (Infer stubWorld longParams 12 [1, 2, 3, 4] 8 5).batches ++
          [(Infer stubWorld longParams 12 [1, 2, 3, 4] 8 (5 + 1)).embed]) :=
  ⟨by decide,
    (batch_partition stubWorld longParams 12 [1, 2, 3, 4] 8 (by decide) 5).1,
    (batch_partition stubWorld longParams 12 [1, 2, 3, 4] 8 (by decide) 5).2
      (by decide) (by decide) (by decide)⟩

/-! ### Feeding before sampling -/

theorem evalBatches_append (a b : List Event) :
    evalBatches (a ++ b) = evalBatches a ++ evalBatches b := by
  simp [evalBatches, List.filterMap_append]

theorem sampled_append (a b : List Event) : sampled (a ++ b) = sampled a ++ sampled b := by
  simp [sampled, List.filterMap_append]

theorem outputs_append (a b : List Event) : outputs (a ++ b) = outputs a ++ outputs b := by
  simp [outputs, List.filterMap_append]

theorem step_FedInv (W : World) (p : LLamaParams) (nCtx : Int) (s : State) (h : FedInv s) :
    FedInv (step W p nCtx s) := by
  have ht := step_trans W p nCtx s
  generalize step W p nCtx s = s' at ht
  obtain ⟨bs, pend, hf, hfed, hp⟩ := h
  unfold pendingOK at hp
  cases ht
  case stay o hpc => exact ⟨bs, pend, hf, hfed, by unfold pendingOK; exact hp⟩
  case panic hpc => exact ⟨bs, pend, hf, hfed, by simp [pendingOK, State.halt]⟩
  case loopEnd hpc hr => exact ⟨bs, pend, hf, hfed, by simp [pendingOK, State.halt]⟩
  case eosStop hpc hr => exact ⟨bs, pend, hf, hfed, by simp [pendingOK, State.halt]⟩
  case loopGo hpc hr =>
    rw [hpc] at hp
    exact ⟨bs, pend, hf, hfed, by simpa [pendingOK] using hp⟩
  case evalSkip hpc he =>
    rw [hpc] at hp
    exact ⟨bs, pend, hf, hfed, by simp only [pendingOK]; rw [hp, he]⟩
  case evalFits hpc he hfit =>
    rw [hpc] at hp
    exact ⟨bs, pend, hf, hfed, by simp only [pendingOK]; rw [hp]⟩
  case swap keep hpc he hov hk =>
    rw [hpc] at hp
    exact ⟨bs, pend, hf, hfed, by simp only [pendingOK]; rw [hp]; exact List.suffix_append _ _⟩
  case evalDone ok pc hpc he hok hpc2 =>
    rw [hpc] at hp
    refine ⟨bs ++ [pend], [], ?_, ?_, ?_⟩
    · simp only [evalBatches_append]
      exact List.rel_append hf (by simpa [evalBatches] using hp)
    · simpa using hfed
    · cases ok <;> simp [pendingOK, hpc2]
  case advance hpc =>
    rw [hpc] at hp
    exact ⟨bs, pend, hf, hfed, by simp only [pendingOK]; exact ⟨hp, trivial⟩⟩
  case sampleSkip hpc hq =>
    rw [hpc] at hp
    exact ⟨bs, pend, hf, hfed, by simp only [pendingOK]; exact ⟨hp.1.trans hp.2.symm, fun _ => hp.2⟩⟩
  case samplePanic w hpc hq =>
    exact ⟨bs, pend, by simpa [evalBatches_append, evalBatches] using hf, hfed,
      by simp [pendingOK]⟩
  case sampleDone w r hpc hq hw hwne hl hr =>
    rw [hpc] at hp
    refine ⟨bs, [W.llamaSample s.trace w], by simpa [evalBatches_append, evalBatches] using hf,
      ?_, ?_⟩
    · simp only [hfed, hp.1, List.append_nil]
    · simp only [pendingOK]; exact ⟨trivial, fun h => absurd hq h⟩
  case eosGo hpc he =>
    rw [hpc] at hp
    exact ⟨bs, pend, hf, hfed, by simpa [pendingOK] using hp⟩
  case popSkip hpc hq =>
    rw [hpc] at hp
    exact ⟨bs, pend, hf, hfed, by simpa [pendingOK] using hp.1⟩
  case popDone b hpc hq hb hbl =>
    rw [hpc] at hp
    refine ⟨bs, s.embedInput.take b, hf, ?_, by simp [pendingOK]⟩
    simp only [hfed, hp.1, hp.2 hq, List.append_nil]
  case provSkip hpc hq =>
    rw [hpc] at hp
    exact ⟨bs, pend, hf, hfed, by simpa [pendingOK] using hp⟩
  case provEnd hpc hq hr =>
    exact ⟨bs, pend, by simpa [evalBatches_append, evalBatches] using hf, hfed,
      by simp [pendingOK]⟩
  case provIn i hpc hq hr =>
    rw [hpc] at hp
    exact ⟨bs, pend, by simpa [evalBatches_append, evalBatches] using hf, hfed,
      by simpa [pendingOK] using hp⟩
  case intNone r hpc hc hr =>
    rw [hpc] at hp
    exact ⟨bs, pend, by simpa [evalBatches_append, evalBatches] using hf, hfed,
      by simpa [pendingOK] using hp⟩
  case intEnd hpc hc hr =>
    exact ⟨bs, pend, by simpa [evalBatches_append, evalBatches] using hf, hfed,
      by simp [pendingOK]⟩
  case intIn i hpc hc hr =>
    rw [hpc] at hp
    exact ⟨bs, pend, by simpa [evalBatches_append, evalBatches] using hf, hfed,
      by simpa [pendingOK] using hp⟩

theorem inferInit_FedInv (p : LLamaParams) (nPredict : Int) (prompt : List Token)
    (nCtx : Int) : FedInv (inferInit p nPredict prompt nCtx) := by
  refine ⟨[], [], ?_, ?_, ?_⟩
  · unfold inferInit
    dsimp only
    repeat' split
    all_goals simp [State.halt, evalBatches]
  · unfold inferInit
    dsimp only
    repeat' split
    all_goals simp [State.halt]
  · unfold inferInit
    dsimp only
    repeat' split
    all_goals simp [State.halt, pendingOK]

/-- A step that calls the sampler starts at the sample step with an empty
queue. -/
theorem step_sampled (W : World) (p : LLamaParams) (nCtx : Int) (s : State)
    (h : sampled (step W p nCtx s).trace ≠ sampled s.trace) :
    s.pc = Phase.sample ∧ s.embedInput = [] := by
  have ht := step_trans W p nCtx s
  generalize step W p nCtx s = s' at ht h
  cases ht
  case samplePanic w hpc hq => exact ⟨hpc, hq⟩
  case sampleDone w r hpc hq hw hwne hl hr => exact ⟨hpc, hq⟩
  all_goals exact absurd (by simp [State.halt, sampled_append, sampled]) h

/-- C6. Prompt fully consumed before sampling: whenever a step of a run of
`Infer` calls the sampler, the pending queue `embedInput` is empty, the
incoming batch `embed` is empty, and the tokens put into `embed` so far by the
populate step and by earlier samples (`fed`) are, in order, chunks that were
each the tail of one of the calls of `Eval` made so far: all of them have
been submitted to the model. -/
theorem sample_after_feeding (W : World) (p : LLamaParams) (nPredict : Int)
    (prompt : List Token) (nCtx : Int) (n : Nat)
    (hcall : sampled (Infer W p nPredict prompt nCtx (n + 1)).trace ≠
      sampled (Infer W p nPredict prompt nCtx n).trace) :
    (Infer W p nPredict prompt nCtx n).embedInput = [] ∧
    (Infer W p nPredict prompt nCtx n).embed = [] ∧
    ∃ bs : List (List Token),
      (Infer W p nPredict prompt nCtx n).fed = bs.flatten ∧
      List.Forall₂ (fun b e => b <:+ e) bs
        (evalBatches (Infer W p nPredict prompt nCtx n).trace) := by
  have hinv : FedInv (Infer W p nPredict prompt nCtx n) :=
    run_invariant W p nCtx FedInv (step_FedInv W p nCtx) _
      (inferInit_FedInv p nPredict prompt nCtx) n
  rw [Infer_succ] at hcall
  obtain ⟨hpc, hq⟩ := step_sampled W p nCtx _ hcall
  obtain ⟨bs, pend, hf, hfed, hp⟩ := hinv
  unfold pendingOK at hp
  rw [hpc] at hp
  exact ⟨hq, hp.2, bs, by rw [hfed, hp.1, List.append_nil], hf⟩

/-- The statement of C6 at the second call of the sampler of a run on the prompt `[1, 2, 3, 4]`. -/
theorem sample_after_feeding_witness :
    sampled (Infer stubWorld longParams 12 [1, 2, 3, 4] 8 (21 + 1)).trace ≠
      sampled (Infer stubWorld longParams 12 [1, 2, 3, 4] 8 21).trace ∧
    ((Infer stubWorld longParams 12 [1, 2, 3, 4] 8 21).embedInput = [] ∧
      (Infer stubWorld longParams 12 [1, 2, 3, 4] 8 21).embed = [] ∧
      ∃ bs : List (List Token),
        (Infer stubWorld longParams 12 [1, 2, 3, 4] 8 21).fed = bs.flatten ∧
        List.Forall₂ (fun b e => b <:+ e) bs
          (evalBatches (Infer stubWorld longParams 12 [1, 2, 3, 4] 8 21).trace)) :=
  ⟨by decide, sample_after_feeding stubWorld longParams 12 [1, 2, 3, 4] 8 21 (by decide)⟩

/-! ### The first swap -/

theorem evalTokens_append (a b : List Event) :
    evalTokens (a ++ b) = evalTokens a ++ evalTokens b := by
  simp [evalTokens, evalBatches_append]

theorem suffix_append_both {a b : List Token} (c : List Token) (h : a <:+ b) :
    a ++ c <:+ b ++ c := by
  obtain ⟨t, rfl⟩ := h
  exact ⟨t, by simp⟩

theorem step_FirstSwapInv (W : World) (p : LLamaParams) (nCtx : Int) (s : State)
    (h : FirstSwapInv nCtx s) : FirstSwapInv nCtx (step W p nCtx s) := by
  have ht := step_trans W p nCtx s
  generalize step W p nCtx s = s' at ht
  unfold FirstSwapInv at h ⊢
  cases ht
  case swap keep hpc he hov hk => intro h0; simp at h0
  case stay o hpc => exact h
  case panic hpc => exact fun h0 => ⟨(h h0).1, by simp [unswapped, State.halt]⟩
  case loopEnd hpc hr => exact fun h0 => ⟨(h h0).1, by simp [unswapped, State.halt]⟩
  case eosStop hpc hr => exact fun h0 => ⟨(h h0).1, by simp [unswapped, State.halt]⟩
  all_goals
    intro h0
    obtain ⟨hs, hu⟩ := h h0
    unfold unswapped at hu
  case loopGo hpc hr =>
    rw [hpc] at hu
    exact ⟨hs, by simpa [unswapped] using hu⟩
  case evalSkip hpc he =>
    rw [hpc] at hu
    refine ⟨hs, ?_⟩
    simp only [unswapped]
    rw [hu.1, hu.2, he]; simp
  case evalFits hpc he hfit =>
    rw [hpc] at hu
    exact ⟨hs, by simpa [unswapped] using hu⟩
  case evalDone ok pc hpc he hok hpc2 =>
    rw [hpc] at hu
    refine ⟨hs, ?_⟩
    cases ok
    · simp [unswapped, hpc2]
    · simp only [unswapped, hpc2, if_true, evalTokens_append]
      simp only [evalTokens, evalBatches, List.filterMap_cons, List.filterMap_nil,
        List.flatten_cons, List.flatten_nil, List.append_nil, List.length_append, Nat.cast_add]
      exact ⟨hu.1, by rw [hu.2]; rfl⟩
  case advance hpc =>
    rw [hpc] at hu
    exact ⟨hs, by simp only [unswapped]; exact ⟨hu.1, hu.2, trivial⟩⟩
  case sampleSkip hpc hq =>
    rw [hpc] at hu
    refine ⟨hs, ?_⟩
    simp only [unswapped]
    exact ⟨by rw [hu.1, hu.2.2, List.append_nil], hu.2.1, fun _ => hu.2.2⟩
  case samplePanic w hpc hq =>
    exact ⟨hs, by simp [unswapped]⟩
  case sampleDone w r hpc hq hw hwne hl hr =>
    rw [hpc] at hu
    refine ⟨?_, ?_⟩
    · rw [← List.append_assoc]
      exact suffix_append_both _ ((List.drop_suffix 1 _).trans hs)
    · simp only [unswapped, evalTokens_append]
      simp only [evalTokens, evalBatches, List.filterMap_cons, List.filterMap_nil,
        List.flatten_nil, List.append_nil]
      exact ⟨by rw [hu.1]; rfl, hu.2.1, fun h => absurd hq h⟩
  case eosGo hpc he =>
    rw [hpc] at hu
    exact ⟨hs, by simpa [unswapped] using hu⟩
  case popSkip hpc hq =>
    rw [hpc] at hu
    exact ⟨hs, by simp only [unswapped]; exact ⟨hu.1, hu.2.1⟩⟩
  case popDone b hpc hq hb hbl =>
    rw [hpc] at hu
    refine ⟨?_, ?_⟩
    · rw [← List.append_assoc]
      exact suffix_append_both _ ((List.drop_suffix b _).trans hs)
    · simp only [unswapped]
      exact ⟨by rw [hu.1, hu.2.2 hq, List.append_nil], hu.2.1⟩
  case provSkip hpc hq =>
    rw [hpc] at hu
    exact ⟨hs, by simpa [unswapped] using hu⟩
  case provEnd hpc hq hr =>
    exact ⟨hs, by simp [unswapped]⟩
  case provIn i hpc hq hr =>
    rw [hpc] at hu
    refine ⟨hs, ?_⟩
    simp only [unswapped, evalTokens_append]
    simpa [evalTokens, evalBatches] using hu
  case intNone r hpc hc hr =>
    rw [hpc] at hu
    refine ⟨hs, ?_⟩
    simp only [unswapped, evalTokens_append]
    simpa [evalTokens, evalBatches] using hu
  case intEnd hpc hc hr =>
    exact ⟨hs, by simp [unswapped]⟩
  case intIn i hpc hc hr =>
    rw [hpc] at hu
    refine ⟨hs, ?_⟩
    simp only [unswapped, evalTokens_append]
    simpa [evalTokens, evalBatches] using hu

/-- The slice taken by the swap out of a history buffer that ends with the
evaluated tokens `ev` followed by `embed`: the last `h` tokens of `ev`. -/
theorem keep_is_latest (Z ev embed lastN : List Token) (C h : Nat)
    (hZ : Z.length = C) (hlen : lastN.length = C) (hs : lastN <:+ Z ++ (ev ++ embed))
    (hL : h + embed.length ≤ C) (hh : h ≤ ev.length) :
    (lastN.take (C - embed.length)).drop (C - h - embed.length) = ev.drop (ev.length - h) := by
  have e1 : lastN = List.drop (ev.length + embed.length) (Z ++ (ev ++ embed)) := by
    have := List.suffix_iff_eq_drop.1 hs
    rw [this]
    congr 1
    simp only [List.length_append, List.length_drop]
    omega
  have e2 : lastN = List.drop (ev.length + embed.length) (Z ++ ev) ++ embed := by
    rw [e1, ← List.append_assoc, List.drop_append_of_le_length]
    simp only [List.length_append]
    omega
  have e3 : lastN.take (C - embed.length) = List.drop (ev.length + embed.length) (Z ++ ev) := by
    rw [e2]
    apply List.take_left'
    simp only [List.length_drop, List.length_append]
    omega
  rw [e3, List.drop_drop]
  have e4 : ev.length + embed.length + (C - h - embed.length) = Z.length + (ev.length - h) := by
    omega
  rw [e4, List.drop_append]

/-- A run that is in its loop passed the two tests made before the loop. -/
theorem Infer_running_init (W : World) (p : LLamaParams) (nPredict : Int)
    (prompt : List Token) (nCtx : Int) (n : Nat)
    (hrun : (Infer W p nPredict prompt nCtx n).pc.isHalted = false) :
    (prompt.length : Int) ≤ nCtx - 4 := by
  by_contra hneg
  have h0 : ∃ o, (inferInit p nPredict prompt nCtx).pc = Phase.halted o := by
    unfold inferInit
    dsimp only
    split
    · exact ⟨_, rfl⟩
    · rw [if_pos (by omega)]
      exact ⟨_, rfl⟩
  obtain ⟨o, h0⟩ := h0
  apply isHalted_false hrun o
  unfold Infer
  rw [run_halted W p nCtx _ _ h0 n]
  exact h0

theorem Infer_FirstSwapInv (W : World) (p : LLamaParams) (nPredict : Int)
    (prompt : List Token) (nCtx : Int) (n : Nat) :
    FirstSwapInv nCtx (Infer W p nPredict prompt nCtx n) := by
  refine run_invariant W p nCtx (FirstSwapInv nCtx) (step_FirstSwapInv W p nCtx) _ ?_ n
  intro _
  refine ⟨?_, ?_⟩
  · unfold inferInit
    dsimp only
    repeat' split
    all_goals simp [State.halt]
  · unfold inferInit
    dsimp only
    repeat' split
    all_goals simp [State.halt, unswapped, evalTokens, evalBatches]

/-- The evaluate step (lines 59-64) when the batch does not fit: it panics
or does the swap. -/
theorem step_evaluate_swap (W : World) (p : LLamaParams) (nCtx : Int) (s : State)
    (hpc : s.pc = Phase.evaluate) (hne : s.embed ≠ [])
    (hov : s.nProcessed + (s.embed.length : Int) > nCtx) :
    (step W p nCtx s).pc = Phase.halted Outcome.panic ∨
    ∃ keep, goSlice s.lastNTokens
        (nCtx - Int.tdiv (s.nProcessed - s.NKeep) 2 - (s.embed.length : Int))
        ((s.lastNTokens.length : Int) - (s.embed.length : Int)) = some keep ∧
      (step W p nCtx s).nProcessed = s.NKeep ∧ (step W p nCtx s).embed = keep ++ s.embed ∧
      (step W p nCtx s).pc = Phase.evalCall := by
  have hpos : s.embed.length > 0 := List.length_pos.2 hne
  unfold step
  rw [hpc]
  dsimp only
  rw [if_pos hpos, if_pos hov]
  split
  · exact Or.inl rfl
  · next n e l hsw =>
    obtain ⟨keep, hk, hr⟩ := DefaultSwapContext_some hsw
    simp only [Prod.mk.injEq] at hr
    obtain ⟨rfl, rfl, rfl⟩ := hr
    exact Or.inr ⟨keep, hk, rfl, rfl, rfl⟩

/-- C8 (amended). Swap content: at the first context swap of a run of `Infer`
that does not panic, with processed count `P`, keep count `K` and `s` the
sequence of all tokens evaluated so far (of length `P`), the `⌊(P-K)/2⌋`
tokens that `DefaultSwapContext` prepends to the incoming batch are the last
`⌊(P-K)/2⌋` tokens of `s`, i.e. `s[P - ⌊(P-K)/2⌋], ..., s[P - 1]`, in order
(the tokens evaluated most recently); the new processed count is `K`. -/
theorem first_swap_prepends_latest (W : World) (p : LLamaParams) (nPredict : Int)
    (prompt : List Token) (nCtx : Int) (n : Nat)
    (hpc : (Infer W p nPredict prompt nCtx n).pc = Phase.evaluate)
    (hsw : (Infer W p nPredict prompt nCtx n).swaps = 0)
    (hne : (Infer W p nPredict prompt nCtx n).embed ≠ [])
    (hov : (Infer W p nPredict prompt nCtx n).nProcessed +
      ((Infer W p nPredict prompt nCtx n).embed.length : Int) > nCtx)
    (hnp : (Infer W p nPredict prompt nCtx (n + 1)).pc ≠ Phase.halted Outcome.panic) :
    ((evalTokens (Infer W p nPredict prompt nCtx n).trace).length : Int) =
      (Infer W p nPredict prompt nCtx n).nProcessed ∧
    (Infer W p nPredict prompt nCtx (n + 1)).nProcessed =
      (Infer W p nPredict prompt nCtx n).NKeep ∧
    (Infer W p nPredict prompt nCtx (n + 1)).embed =
      (evalTokens (Infer W p nPredict prompt nCtx n).trace).drop
          ((evalTokens (Infer W p nPredict prompt nCtx n).trace).length -
            (((Infer W p nPredict prompt nCtx n).nProcessed -
              (Infer W p nPredict prompt nCtx n).NKeep) / 2).toNat) ++
        (Infer W p nPredict prompt nCtx n).embed ∧
    (Infer W p nPredict prompt nCtx (n + 1)).embed.length =
      (((Infer W p nPredict prompt nCtx n).nProcessed -
        (Infer W p nPredict prompt nCtx n).NKeep) / 2).toNat +
      (Infer W p nPredict prompt nCtx n).embed.length := by
  have hrun : (Infer W p nPredict prompt nCtx n).pc.isHalted = false := by
    rw [hpc]; rfl
  have hC := Infer_running_nCtx W p nPredict prompt nCtx n hrun
  have hP := Infer_running_init W p nPredict prompt nCtx n hrun
  have hK := (Infer_NKeep W p nPredict prompt nCtx hP n).2.2.2.1
  have hB := (Infer_BufferInv W p nPredict prompt nCtx hC n).1
  obtain ⟨hs, hu⟩ := Infer_FirstSwapInv W p nPredict prompt nCtx n hsw
  rw [Infer_succ] at hnp ⊢
  generalize Infer W p nPredict prompt nCtx n = s at hpc hsw hne hov hnp hrun hK hB hs hu ⊢
  unfold unswapped at hu
  rw [hpc] at hu
  dsimp only at hu
  obtain ⟨hfed, hev⟩ := hu
  rcases step_evaluate_swap W p nCtx s hpc hne hov with h | ⟨keep, hk, h1, h2, _⟩
  · exact absurd h hnp
  · obtain ⟨⟨hb0, hb1, hb2⟩, hkeep⟩ := goSlice_some hk
    have htd : 0 ≤ Int.tdiv (s.nProcessed - s.NKeep) 2 := by omega
    have hge : -1 ≤ s.nProcessed - s.NKeep := by
      by_contra hlt
      have : Int.tdiv (s.nProcessed - s.NKeep) 2 < 0 := by
        have h3 : s.nProcessed - s.NKeep = -(-(s.nProcessed - s.NKeep)) := by omega
        rw [h3, Int.neg_tdiv]
        have h4 : 1 ≤ Int.tdiv (-(s.nProcessed - s.NKeep)) 2 := by
          rw [Int.tdiv_eq_ediv (by omega) (by decide)]
          omega
        omega
      omega
    have hdiv : Int.tdiv (s.nProcessed - s.NKeep) 2 =
        (((s.nProcessed - s.NKeep) / 2).toNat : Int) := by
      rcases lt_or_ge (s.nProcessed - s.NKeep) 0 with hneg | hnn
      · have : s.nProcessed - s.NKeep = -1 := by omega
        rw [this]; decide
      · rw [Int.tdiv_eq_ediv hnn (by decide)]
        omega
    have hkl : keep = (evalTokens s.trace).drop ((evalTokens s.trace).length -
        ((s.nProcessed - s.NKeep) / 2).toNat) := by
      rw [hkeep]
      have := keep_is_latest (List.replicate nCtx.toNat 0) (evalTokens s.trace) s.embed
        s.lastNTokens nCtx.toNat ((s.nProcessed - s.NKeep) / 2).toNat
        (by simp) (by omega) (by rw [← hfed]; exact hs) (by omega) (by omega)
      rw [← this]
      congr 2 <;> omega
    refine ⟨hev.symm, h1, by rw [h2, hkl], ?_⟩
    rw [h2, hkl, List.length_append, List.length_drop]
    omega

/-- The statement of C8 (amended) at the first swap of a run on the prompt `[1, 2, 3, 4]` with capacity 8. -/
theorem first_swap_prepends_latest_witness :
    ((Infer stubWorld longParams 12 [1, 2, 3, 4] 8 54).pc = Phase.evaluate ∧
      (Infer stubWorld longParams 12 [1, 2, 3, 4] 8 54).swaps = 0 ∧
      (Infer stubWorld longParams 12 [1, 2, 3, 4] 8 54).embed ≠ [] ∧
      (Infer stubWorld longParams 12 [1, 2, 3, 4] 8 54).nProcessed +
        ((Infer stubWorld longParams 12 [1, 2, 3, 4] 8 54).embed.length : Int) > 8 ∧
      (Infer stubWorld longParams 12 [1, 2, 3, 4] 8 (54 + 1)).pc ≠
        Phase.halted Outcome.panic) ∧
    (((evalTokens (Infer stubWorld longParams 12 [1, 2, 3, 4] 8 54).trace).length : Int) =
        (Infer stubWorld longParams 12 [1, 2, 3, 4] 8 54).nProcessed ∧
      (Infer stubWorld longParams 12 [1, 2, 3, 4] 8 (54 + 1)).nProcessed =
        (Infer stubWorld longParams 12 [1, 2, 3, 4] 8 54).NKeep ∧
      (Infer stubWorld longParams 12 [1, 2, 3, 4] 8 (54 + 1)).embed =
        (evalTokens (Infer stubWorld longParams 12 [1, 2, 3, 4] 8 54).trace).drop
            ((evalTokens (Infer stubWorld longParams 12 [1, 2, 3, 4] 8 54).trace).length -
              (((Infer stubWorld longParams 12 [1, 2, 3, 4] 8 54).nProcessed -
                (Infer stubWorld longParams 12 [1, 2, 3, 4] 8 54).NKeep) / 2).toNat) ++
          (Infer stubWorld longParams 12 [1, 2, 3, 4] 8 54).embed ∧
      (Infer stubWorld longParams 12 [1, 2, 3, 4] 8 (54 + 1)).embed.length =
        (((Infer stubWorld longParams 12 [1, 2, 3, 4] 8 54).nProcessed -
          (Infer stubWorld longParams 12 [1, 2, 3, 4] 8 54).NKeep) / 2).toNat +
        (Infer stubWorld longParams 12 [1, 2, 3, 4] 8 54).embed.length) :=
  ⟨by decide, first_swap_prepends_latest stubWorld longParams 12 [1, 2, 3, 4] 8 54
    (by decide) (by decide) (by decide) (by decide) (by decide)⟩

/-! ### The steps of the loop as equations -/

theorem step_loopCond_go (W : World) (p : LLamaParams) (nCtx : Int) (s : State)
    (hpc : s.pc = Phase.loopCond) (hr : s.nRemain ≠ 0) :
    step W p nCtx s = { s with pc := Phase.evaluate } := by
  unfold step; rw [hpc]; dsimp only; rw [if_pos hr]

theorem step_loopCond_end (W : World) (p : LLamaParams) (nCtx : Int) (s : State)
    (hpc : s.pc = Phase.loopCond) (hr : s.nRemain = 0) :
    step W p nCtx s = s.halt Outcome.ok := by
  unfold step; rw [hpc]; dsimp only; rw [if_neg (by simpa using hr)]

theorem step_evaluate_skip (W : World) (p : LLamaParams) (nCtx : Int) (s : State)
    (hpc : s.pc = Phase.evaluate) (he : s.embed = []) :
    step W p nCtx s = { s with pc := Phase.advance } := by
  unfold step; rw [hpc]; dsimp only; rw [if_neg (by simp [he])]

theorem step_evaluate_fits (W : World) (p : LLamaParams) (nCtx : Int) (s : State)
    (hpc : s.pc = Phase.evaluate) (he : s.embed ≠ [])
    (hfit : s.nProcessed + (s.embed.length : Int) ≤ nCtx) :
    step W p nCtx s = { s with pc := Phase.evalCall } := by
  unfold step; rw [hpc]; dsimp only
  rw [if_pos (List.length_pos.2 he), if_neg (by omega)]

theorem step_evaluate_swapped (W : World) (p : LLamaParams) (nCtx : Int) (s : State)
    (hpc : s.pc = Phase.evaluate) (he : s.embed ≠ [])
    (hov : s.nProcessed + (s.embed.length : Int) > nCtx)
    (hlo : 0 ≤ nCtx - Int.tdiv (s.nProcessed - s.NKeep) 2 - (s.embed.length : Int))
    (hhi : nCtx - Int.tdiv (s.nProcessed - s.NKeep) 2 ≤ (s.lastNTokens.length : Int)) :
    step W p nCtx s =
      { s with nProcessed := s.NKeep,
               embed := (s.lastNTokens.take
                   ((s.lastNTokens.length : Int) - (s.embed.length : Int)).toNat).drop
                 (nCtx - Int.tdiv (s.nProcessed - s.NKeep) 2 - (s.embed.length : Int)).toNat ++
                 s.embed,
               lastNTokens :=
                 s.lastNTokens.take (s.lastNTokens.length - s.embed.length) ++ s.embed,
               swaps := s.swaps + 1, pc := Phase.evalCall } := by
  unfold step; rw [hpc]; dsimp only
  rw [if_pos (List.length_pos.2 he), if_pos hov]
  unfold DefaultSwapContext
  dsimp only
  rw [goSlice_eq_some hlo (by omega) (by omega)]

theorem step_evalCall_ok (W : World) (p : LLamaParams) (nCtx : Int) (s : State)
    (hpc : s.pc = Phase.evalCall) (he : s.embed ≠ [])
    (hok : W.llamaEval s.trace s.embed s.nProcessed p.NThreads = true) :
    step W p nCtx s =
      { s with trace := s.trace ++ [Event.eval s.embed s.nProcessed p.NThreads true],
               pc := Phase.advance } := by
  unfold step; rw [hpc]; dsimp only
  unfold Eval
  rw [if_neg (by simpa using he), hok]
  rfl

theorem step_advance (W : World) (p : LLamaParams) (nCtx : Int) (s : State)
    (hpc : s.pc = Phase.advance) :
    step W p nCtx s =
      { s with nProcessed := s.nProcessed + (s.embed.length : Int), embed := [],
               pc := Phase.sample } := by
  unfold step; rw [hpc]

theorem step_sample_skip (W : World) (p : LLamaParams) (nCtx : Int) (s : State)
    (hpc : s.pc = Phase.sample) (hq : s.embedInput ≠ []) :
    step W p nCtx s = { s with pc := Phase.eosCheck } := by
  unfold step; rw [hpc]; dsimp only; rw [if_neg (by simpa using hq)]

theorem step_sample_done (W : World) (p : LLamaParams) (nCtx : Int) (s : State)
    (hpc : s.pc = Phase.sample) (hq : s.embedInput = [])
    (hlen : (s.lastNTokens.length : Int) = nCtx)
    (hw1 : 1 ≤ p.RepeatLastN) (hw2 : p.RepeatLastN ≤ nCtx) :
    step W p nCtx s =
      { s with
          lastNTokens := s.lastNTokens.drop 1 ++
            [W.llamaSample s.trace (s.lastNTokens.drop (nCtx - p.RepeatLastN).toNat)],
          embed := [W.llamaSample s.trace (s.lastNTokens.drop (nCtx - p.RepeatLastN).toNat)],
          nRemain := if s.nRemain > 0 then s.nRemain - 1 else s.nRemain,
          trace := s.trace ++
            [Event.sample (s.lastNTokens.drop (nCtx - p.RepeatLastN).toNat)
              (W.llamaSample s.trace (s.lastNTokens.drop (nCtx - p.RepeatLastN).toNat))] ++
            [Event.output
              (W.llamaSample s.trace (s.lastNTokens.drop (nCtx - p.RepeatLastN).toNat))],
          fed := s.fed ++
            [W.llamaSample s.trace (s.lastNTokens.drop (nCtx - p.RepeatLastN).toNat)],
          pc := Phase.eosCheck } := by
  unfold step; rw [hpc]; dsimp only
  rw [if_pos (by simp [hq])]
  rw [goSlice_eq_some (by omega) (by omega) (le_refl _)]
  dsimp only
  unfold SampleTopPTopK
  rw [if_neg (by simp only [List.length_drop, List.length_take]; omega)]
  dsimp only
  rw [goSlice_eq_some (by omega) (by omega) (le_refl _)]
  simp

theorem step_eos_stop (W : World) (p : LLamaParams) (nCtx : Int) (s : State)
    (hpc : s.pc = Phase.eosCheck) (he : s.embed ≠ [])
    (hl : s.embed.getLast? = some W.TokenEOS) :
    step W p nCtx s = s.halt Outcome.ok := by
  unfold step; rw [hpc]; dsimp only
  rw [if_pos ⟨List.length_pos.2 he, hl⟩]

theorem step_eos_go (W : World) (p : LLamaParams) (nCtx : Int) (s : State)
    (hpc : s.pc = Phase.eosCheck)
    (he : s.embed = [] ∨ s.embed.getLast? ≠ some W.TokenEOS) :
    step W p nCtx s = { s with pc := Phase.populate } := by
  unfold step; rw [hpc]; dsimp only
  rw [if_neg]
  rintro ⟨h1, h2⟩
  rcases he with he | he
  · simp [he] at h1
  · exact he h2

theorem step_populate_skip (W : World) (p : LLamaParams) (nCtx : Int) (s : State)
    (hpc : s.pc = Phase.populate) (hq : s.embedInput = []) :
    step W p nCtx s = { s with pc := Phase.provide } := by
  unfold step; rw [hpc]; dsimp only; rw [if_neg (by simp [hq])]

theorem step_populate_done (W : World) (p : LLamaParams) (nCtx : Int) (s : State) (b : Nat)
    (hpc : s.pc = Phase.populate) (hq : s.embedInput ≠ [])
    (hb : (b : Int) = min p.NBatch (s.embedInput.length : Int))
    (hbl : b ≤ s.lastNTokens.length) :
    step W p nCtx s =
      { s with embed := s.embedInput.take b,
               lastNTokens := s.lastNTokens.drop b ++ s.embedInput.take b,
               embedInput := s.embedInput.drop b,
               batches := s.batches ++ [s.embedInput.take b],
               fed := s.fed ++ s.embedInput.take b, pc := Phase.provide } := by
  unfold step; rw [hpc]; dsimp only
  rw [if_pos (List.length_pos.2 hq), ← hb]
  rw [goSlice_eq_some (le_refl _) (by omega) (by omega)]
  dsimp only
  rw [goSlice_eq_some (by omega) (by omega) (le_refl _)]
  dsimp only
  rw [goSlice_eq_some (by omega) (by omega) (le_refl _)]
  simp

theorem step_provide_skip (W : World) (p : LLamaParams) (nCtx : Int) (s : State)
    (hpc : s.pc = Phase.provide) (hq : s.embedInput ≠ []) :
    step W p nCtx s = { s with pc := Phase.interject } := by
  unfold step; rw [hpc]; dsimp only; rw [if_neg (by simpa using hq)]

theorem step_provide_in (W : World) (p : LLamaParams) (nCtx : Int) (s : State)
    (i : List Token) (hpc : s.pc = Phase.provide) (hq : s.embedInput = [])
    (hi : W.fnIn s.trace s.lastNTokens false = some i) :
    step W p nCtx s =
      { s with trace := s.trace ++ [Event.input s.lastNTokens false (some i)],
               embedInput := s.embedInput ++ i, pc := Phase.interject } := by
  unfold step; rw [hpc]; dsimp only
  rw [if_pos (by simp [hq])]
  unfold callInput
  dsimp only
  rw [hi]
  dsimp only
  rw [appendInput_some]

theorem step_interject_none (W : World) (p : LLamaParams) (nCtx : Int) (s : State)
    (hpc : s.pc = Phase.interject) (hc : W.chInterject s.trace ≠ ChanRecv.value) :
    step W p nCtx s =
      { s with trace := s.trace ++ [Event.recv (W.chInterject s.trace)],
               pc := Phase.loopCond } := by
  unfold step; rw [hpc]; dsimp only
  split
  · next h => exact absurd h hc
  · rfl

/-! ### Runs that end -/

theorem run_trans (W : World) (p : LLamaParams) (nCtx : Int) {k1 k2 : Nat} {s s1 s2 : State}
    (h1 : run W p nCtx k1 s = s1) (h2 : run W p nCtx k2 s1 = s2) :
    run W p nCtx (k1 + k2) s = s2 := by
  rw [run_add, h1, h2]

theorem run_step (W : World) (p : LLamaParams) (nCtx : Int) {k : Nat} {s s1 s2 : State}
    (h1 : step W p nCtx s = s1) (h2 : run W p nCtx k s1 = s2) :
    run W p nCtx (k + 1) s = s2 := by
  rw [run, h1, h2]

theorem run_zero (W : World) (p : LLamaParams) (nCtx : Int) (s : State) :
    run W p nCtx 0 s = s := rfl

theorem run_one (W : World) (p : LLamaParams) (nCtx : Int) (s : State) :
    run W p nCtx 1 s = step W p nCtx s := rfl

theorem evalCalls_append (a b : List Event) :
    evalCalls (a ++ b) = evalCalls a ++ evalCalls b := by
  simp [evalCalls, List.filterMap_append]

theorem EvalBound_snoc_eval (nCtx : Int) (tr : List Event) (t : List Token) (n k : Int)
    (ok : Bool) (h : EvalBound nCtx tr) (hb : n + (t.length : Int) ≤ nCtx) :
    EvalBound nCtx (tr ++ [Event.eval t n k ok]) := by
  intro c hc
  rw [evalCalls_append] at hc
  rcases List.mem_append.1 hc with hc | hc
  · exact h c hc
  · simp [evalCalls] at hc
    rw [hc]; exact hb

/-- From the head of the loop to the sample step: the evaluate step with a
batch that fits, or with a one-token batch on a full context (the swap). -/
theorem reach_sample (W : World) (p : LLamaParams) (nCtx : Int) (s : State)
    (hE : ∀ tr t n k, W.llamaEval tr t n k = true)
    (hpc : s.pc = Phase.loopCond) (hr : s.nRemain ≠ 0)
    (hlen : (s.lastNTokens.length : Int) = nCtx)
    (hK0 : 0 ≤ s.NKeep) (hK4 : s.NKeep ≤ nCtx - 4) (hP : 0 ≤ s.nProcessed)
    (hcap : s.nProcessed + (s.embed.length : Int) ≤ nCtx ∨
      (s.embed.length = 1 ∧ s.nProcessed = nCtx)) :
    ∃ k s', run W p nCtx k s = s' ∧ s'.pc = Phase.sample ∧ s'.embed = [] ∧
      s'.embedInput = s.embedInput ∧ s'.nRemain = s.nRemain ∧ s'.NKeep = s.NKeep ∧
      (s'.lastNTokens.length : Int) = nCtx ∧ 0 ≤ s'.nProcessed ∧ s'.nProcessed ≤ nCtx ∧
      (s.nProcessed + (s.embed.length : Int) ≤ nCtx →
        s'.nProcessed = s.nProcessed + (s.embed.length : Int)) ∧
      outputs s'.trace = outputs s.trace ∧ sampled s'.trace = sampled s.trace ∧
      (EvalBound nCtx s.trace → EvalBound nCtx s'.trace) := by
  have r1 := step_loopCond_go W p nCtx s hpc hr
  by_cases he : s.embed = []
  · -- nothing to evaluate
    have r2 := step_evaluate_skip W p nCtx { s with pc := Phase.evaluate } rfl he
    have r3 := step_advance W p nCtx { s with pc := Phase.advance } rfl
    dsimp only at r2 r3
    have hrun := run_step W p nCtx r1 (run_step W p nCtx r2 (run_step W p nCtx r3
      (run_zero W p nCtx _)))
    refine ⟨_, _, hrun, ?_⟩
    refine ⟨rfl, rfl, rfl, rfl, rfl, hlen, ?_, ?_, ?_, rfl, rfl, fun h => h⟩
    · simp only [he, List.length_nil]; omega
    · rcases hcap with h | h
      · simp only [he, List.length_nil] at h ⊢; omega
      · simp [he] at h
    · intro _; rfl
  · by_cases hfit : s.nProcessed + (s.embed.length : Int) ≤ nCtx
    · have r2 := step_evaluate_fits W p nCtx { s with pc := Phase.evaluate } rfl he hfit
      have r3 := step_evalCall_ok W p nCtx { s with pc := Phase.evalCall } rfl he (hE _ _ _ _)
      have r4 := step_advance W p nCtx
        { s with trace := s.trace ++ [Event.eval s.embed s.nProcessed p.NThreads true],
                 pc := Phase.advance } rfl
      dsimp only at r2 r3 r4
      have hrun := run_step W p nCtx r1 (run_step W p nCtx r2 (run_step W p nCtx r3
        (run_step W p nCtx r4 (run_zero W p nCtx _))))
      refine ⟨_, _, hrun, ?_⟩
      refine ⟨rfl, rfl, rfl, rfl, rfl, hlen, ?_, ?_, ?_, ?_, ?_, ?_⟩
      · show 0 ≤ s.nProcessed + (s.embed.length : Int)
        omega
      · exact hfit
      · intro _; rfl
      · simp [outputs_append, outputs]
      · simp [sampled_append, sampled]
      · intro h
        exact EvalBound_snoc_eval nCtx _ _ _ _ _ h hfit
    · -- the swap
      have hL : s.embed.length = 1 := by omega
      have hPC : s.nProcessed = nCtx := by omega
      have hdiv : Int.tdiv (s.nProcessed - s.NKeep) 2 = (nCtx - s.NKeep) / 2 := by
        rw [hPC]; exact Int.tdiv_eq_ediv (by omega) (by decide)
      have r2 := step_evaluate_swapped W p nCtx { s with pc := Phase.evaluate } rfl he
        (by show s.nProcessed + (s.embed.length : Int) > nCtx
            omega)
        (by show 0 ≤ nCtx - Int.tdiv (s.nProcessed - s.NKeep) 2 - (s.embed.length : Int)
            rw [hdiv, hL]; omega)
        (by show nCtx - Int.tdiv (s.nProcessed - s.NKeep) 2 ≤ (s.lastNTokens.length : Int)
            rw [hdiv]; omega)
      dsimp only at r2
      generalize hkeep : List.drop
        (nCtx - Int.tdiv (s.nProcessed - s.NKeep) 2 - (s.embed.length : Int)).toNat
        (List.take ((s.lastNTokens.length : Int) - (s.embed.length : Int)).toNat
          s.lastNTokens) = keep at r2
      have hkl : (keep.length : Int) = (nCtx - s.NKeep) / 2 := by
        rw [← hkeep, List.length_drop, List.length_take, hdiv, hL]
        omega
      have hne2 : keep ++ s.embed ≠ [] := by simp [he]
      have r3 := step_evalCall_ok W p nCtx
        { s with nProcessed := s.NKeep, embed := keep ++ s.embed,
                 lastNTokens :=
                   s.lastNTokens.take (s.lastNTokens.length - s.embed.length) ++ s.embed,
                 swaps := s.swaps + 1, pc := Phase.evalCall } rfl hne2 (hE _ _ _ _)
      dsimp only at r3
      have r4 := step_advance W p nCtx
        { s with nProcessed := s.NKeep, embed := keep ++ s.embed,
                 lastNTokens :=
                   s.lastNTokens.take (s.lastNTokens.length - s.embed.length) ++ s.embed,
                 swaps := s.swaps + 1,
                 trace := s.trace ++ [Event.eval (keep ++ s.embed) s.NKeep p.NThreads true],
                 pc := Phase.advance } rfl
      dsimp only at r4
      have hnew : s.NKeep + ((keep ++ s.embed).length : Int) ≤ nCtx := by
        rw [List.length_append, Nat.cast_add, hkl, hL]
        omega
      have hrun := run_step W p nCtx r1 (run_step W p nCtx r2 (run_step W p nCtx r3
        (run_step W p nCtx r4 (run_zero W p nCtx _))))
      refine ⟨_, _, hrun, ?_⟩
      refine ⟨rfl, rfl, rfl, rfl, rfl, ?_, ?_, ?_, ?_, ?_, ?_, ?_⟩
      · show ((s.lastNTokens.take (s.lastNTokens.length - s.embed.length) ++
          s.embed).length : Int) = nCtx
        rw [List.length_append, List.length_take]
        omega
      · show 0 ≤ s.NKeep + ((keep ++ s.embed).length : Int)
        omega
      · exact hnew
      · intro h; exact absurd h hfit
      · simp [outputs_append, outputs]
      · simp [sampled_append, sampled]
      · intro h
        exact EvalBound_snoc_eval nCtx _ _ _ _ _ h hnew

/-- From the provide step to the head of the loop when the input provider
returns no token and no interjection is signalled. -/
theorem reach_loop (W : World) (p : LLamaParams) (nCtx : Int) (s : State)
    (hI : ∀ tr l b, W.fnIn tr l b = some [])
    (hC : ∀ tr, W.chInterject tr ≠ ChanRecv.value)
    (hpc : s.pc = Phase.provide) :
    ∃ k s', run W p nCtx k s = s' ∧ s'.pc = Phase.loopCond ∧ s'.embed = s.embed ∧
      s'.embedInput = s.embedInput ∧ s'.nRemain = s.nRemain ∧ s'.NKeep = s.NKeep ∧
      s'.nProcessed = s.nProcessed ∧ s'.lastNTokens = s.lastNTokens ∧
      outputs s'.trace = outputs s.trace ∧ sampled s'.trace = sampled s.trace ∧
      evalCalls s'.trace = evalCalls s.trace := by
  by_cases hq : s.embedInput = []
  · have r1 := step_provide_in W p nCtx s [] hpc hq (hI _ _ _)
    have r2 := step_interject_none W p nCtx
      { s with trace := s.trace ++ [Event.input s.lastNTokens false (some [])],
               embedInput := s.embedInput ++ [], pc := Phase.interject } rfl (hC _)
    have hrun := run_step W p nCtx r1 (run_step W p nCtx r2 (run_zero W p nCtx _))
    refine ⟨_, _, hrun, rfl, rfl, ?_, rfl, rfl, rfl, rfl, ?_, ?_, ?_⟩
    · show s.embedInput ++ [] = s.embedInput
      simp
    · simp [outputs_append, outputs]
    · simp [sampled_append, sampled]
    · simp [evalCalls_append, evalCalls]
  · have r1 := step_provide_skip W p nCtx s hpc hq
    have r2 := step_interject_none W p nCtx { s with pc := Phase.interject } rfl (hC _)
    have hrun := run_step W p nCtx r1 (run_step W p nCtx r2 (run_zero W p nCtx _))
    refine ⟨_, _, hrun, rfl, rfl, rfl, rfl, rfl, rfl, rfl, ?_, ?_, ?_⟩
    · simp [outputs_append, outputs]
    · simp [sampled_append, sampled]
    · simp [evalCalls_append, evalCalls]

theorem EvalBound_of_evalCalls_eq {nCtx : Int} {a b : List Event}
    (h : evalCalls b = evalCalls a) (hb : EvalBound nCtx a) : EvalBound nCtx b := by
  unfold EvalBound at hb ⊢
  rw [h]; exact hb

/-- One turn of the loop on a non-empty queue: the pending batch is
evaluated and the next batch is taken from the queue. -/
theorem feed_iteration (W : World) (p : LLamaParams) (nCtx : Int) (s : State)
    (hE : ∀ tr t n k, W.llamaEval tr t n k = true)
    (hI : ∀ tr l b, W.fnIn tr l b = some [])
    (hC : ∀ tr, W.chInterject tr ≠ ChanRecv.value)
    (hB : 1 ≤ p.NBatch)
    (hh : LoopHead nCtx s) (hr : s.nRemain ≠ 0) (hq : s.embedInput ≠ [])
    (hfit : s.nProcessed + (s.embed.length : Int) + (s.embedInput.length : Int) ≤ nCtx) :
    ∃ k s', run W p nCtx k s = s' ∧ LoopHead nCtx s' ∧ s'.nRemain = s.nRemain ∧
      s'.NKeep = s.NKeep ∧ s'.embedInput.length < s.embedInput.length ∧
      s'.nProcessed + (s'.embed.length : Int) + (s'.embedInput.length : Int) ≤ nCtx ∧
      outputs s'.trace = outputs s.trace ∧ sampled s'.trace = sampled s.trace ∧
      (EvalBound nCtx s.trace → EvalBound nCtx s'.trace) := by
  obtain ⟨hpc, hlen, hK0, hK4, hP⟩ := hh
  obtain ⟨k1, s1, h1, a1, a2, a3, a4, a5, a6, a7, a8, a9, a10, a11, a12⟩ :=
    reach_sample W p nCtx s hE hpc hr hlen hK0 hK4 hP (Or.inl (by omega))
  have hq1 : s1.embedInput ≠ [] := by rw [a3]; exact hq
  have r1 := step_sample_skip W p nCtx s1 a1 hq1
  have r2 := step_eos_go W p nCtx { s1 with pc := Phase.eosCheck } rfl (Or.inl a2)
  have hqpos : 0 < s.embedInput.length := List.length_pos.2 hq
  have hb : (((min p.NBatch (s.embedInput.length : Int)).toNat : Nat) : Int) =
      min p.NBatch (s1.embedInput.length : Int) := by
    rw [a3]; omega
  have r3 := step_populate_done W p nCtx { s1 with pc := Phase.populate }
    (min p.NBatch (s.embedInput.length : Int)).toNat rfl hq1 hb
    (by show (min p.NBatch (s.embedInput.length : Int)).toNat ≤ s1.lastNTokens.length
        omega)
  obtain ⟨k2, s2, h2, b1, b2, b3, b4, b5, b6, b7, b8, b9, b10⟩ :=
    reach_loop W p nCtx (step W p nCtx { s1 with pc := Phase.populate }) hI hC (by rw [r3])
  have hrun := run_trans W p nCtx h1
    (run_step W p nCtx r1 (run_step W p nCtx r2 (run_step W p nCtx rfl h2)))
  rw [r3] at b2 b3 b4 b5 b6 b7 b8 b9 b10
  dsimp only at b2 b3 b4 b5 b6 b7 b8 b9 b10
  refine ⟨_, _, hrun, ⟨b1, ?_, ?_, ?_, ?_⟩, ?_, ?_, ?_, ?_, ?_, ?_, ?_⟩
  · rw [b7]
    show ((s1.lastNTokens.drop _ ++ s1.embedInput.take _).length : Int) = nCtx
    rw [List.length_append, List.length_drop, List.length_take, a3]
    omega
  · rw [b5]; show 0 ≤ s1.NKeep; omega
  · rw [b5]; show s1.NKeep ≤ nCtx - 4; omega
  · rw [b6]; exact a7
  · rw [b4]; exact a4
  · rw [b5]; exact a5
  · rw [b3]
    show (s1.embedInput.drop _).length < s.embedInput.length
    rw [List.length_drop, a3]
    omega
  · rw [b6, b2, b3]
    show s1.nProcessed + ((s1.embedInput.take _).length : Int) +
      ((s1.embedInput.drop _).length : Int) ≤ nCtx
    rw [List.length_drop, List.length_take, a3, a9 (by omega)]
    omega
  · rw [b8]; exact a10
  · rw [b9]; exact a11
  · intro h
    exact EvalBound_of_evalCalls_eq b10 (a12 h)

/-- The loop on a queue that fits into the context: after finitely many
steps the queue is empty and its last batch is pending. -/
theorem feed_prompt (W : World) (p : LLamaParams) (nCtx : Int)
    (hE : ∀ tr t n k, W.llamaEval tr t n k = true)
    (hI : ∀ tr l b, W.fnIn tr l b = some [])
    (hC : ∀ tr, W.chInterject tr ≠ ChanRecv.value)
    (hB : 1 ≤ p.NBatch) (m : Nat) :
    ∀ s : State, s.embedInput.length = m → LoopHead nCtx s → s.nRemain ≠ 0 →
      s.nProcessed + (s.embed.length : Int) + (s.embedInput.length : Int) ≤ nCtx →
      ∃ k s', run W p nCtx k s = s' ∧ LoopHead nCtx s' ∧ s'.embedInput = [] ∧
        s'.nRemain = s.nRemain ∧ s'.NKeep = s.NKeep ∧
        s'.nProcessed + (s'.embed.length : Int) ≤ nCtx ∧
        outputs s'.trace = outputs s.trace ∧ sampled s'.trace = sampled s.trace ∧
        (EvalBound nCtx s.trace → EvalBound nCtx s'.trace) := by
  induction m using Nat.strong_induction_on with
  | _ m ih =>
    intro s hm hh hr hfit
    by_cases hq : s.embedInput = []
    · refine ⟨0, s, rfl, hh, hq, rfl, rfl, ?_, rfl, rfl, fun h => h⟩
      have : (s.embedInput.length : Int) = 0 := by simp [hq]
      omega
    · obtain ⟨k1, s1, h1, c1, c2, c3, c4, c5, c6, c7, c8⟩ :=
        feed_iteration W p nCtx s hE hI hC hB hh hr hq hfit
      obtain ⟨k2, s2, h2, d1, d2, d3, d4, d5, d6, d7, d8⟩ :=
        ih s1.embedInput.length (by omega) s1 rfl c1 (by rw [c2]; exact hr) c5
      exact ⟨_, _, run_trans W p nCtx h1 h2, d1, d2, d3.trans c2, d4.trans c3, d5,
        d6.trans c6, d7.trans c7, fun h => d8 (c8 h)⟩

/-- One turn of the loop on an empty queue: the pending batch is evaluated
(after a swap when the context is full), one token is sampled and emitted,
and the run ends when it is the end-of-text token. -/
theorem gen_iteration (W : World) (p : LLamaParams) (nCtx : Int) (s : State)
    (hE : ∀ tr t n k, W.llamaEval tr t n k = true)
    (hI : ∀ tr l b, W.fnIn tr l b = some [])
    (hC : ∀ tr, W.chInterject tr ≠ ChanRecv.value)
    (hw1 : 1 ≤ p.RepeatLastN) (hw2 : p.RepeatLastN ≤ nCtx)
    (hh : LoopHead nCtx s) (hr : s.nRemain ≠ 0) (hq : s.embedInput = [])
    (hcap : s.nProcessed + (s.embed.length : Int) ≤ nCtx ∨
      (s.embed.length = 1 ∧ s.nProcessed = nCtx)) :
    ∃ k s' tr w, run W p nCtx k s = s' ∧
      outputs s'.trace = outputs s.trace ++ [W.llamaSample tr w] ∧
      sampled s'.trace = sampled s.trace ++ [W.llamaSample tr w] ∧
      (s'.lastNTokens.length : Int) = nCtx ∧ s'.NKeep = s.NKeep ∧
      (EvalBound nCtx s.trace → EvalBound nCtx s'.trace) ∧
      (W.llamaSample tr w = W.TokenEOS → s'.pc = Phase.halted Outcome.ok) ∧
      (W.llamaSample tr w ≠ W.TokenEOS →
        LoopHead nCtx s' ∧ s'.embedInput = [] ∧ s'.embed.length = 1 ∧
        s'.nProcessed ≤ nCtx ∧
        s'.nRemain = (if s.nRemain > 0 then s.nRemain - 1 else s.nRemain)) := by
  obtain ⟨hpc, hlen, hK0, hK4, hP⟩ := hh
  obtain ⟨k1, s1, h1, a1, a2, a3, a4, a5, a6, a7, a8, a9, a10, a11, a12⟩ :=
    reach_sample W p nCtx s hE hpc hr hlen hK0 hK4 hP hcap
  have hq1 : s1.embedInput = [] := by rw [a3]; exact hq
  have r1 := step_sample_done W p nCtx s1 a1 hq1 a6 hw1 hw2
  generalize hid : W.llamaSample s1.trace
    (s1.lastNTokens.drop (nCtx - p.RepeatLastN).toNat) = id at r1
  generalize hwin : s1.lastNTokens.drop (nCtx - p.RepeatLastN).toNat = win at r1 hid
  have hl1 : 1 ≤ s1.lastNTokens.length := by omega
  have hout : outputs (s1.trace ++ [Event.sample win id] ++ [Event.output id]) =
      outputs s.trace ++ [id] := by
    rw [outputs_append, outputs_append, a10]
    simp [outputs]
  have hsam : sampled (s1.trace ++ [Event.sample win id] ++ [Event.output id]) =
      sampled s.trace ++ [id] := by
    rw [sampled_append, sampled_append, a11]
    simp [sampled]
  have hev : evalCalls (s1.trace ++ [Event.sample win id] ++ [Event.output id]) =
      evalCalls s1.trace := by
    simp [evalCalls_append, evalCalls]
  have hlen2 : (((s1.lastNTokens.drop 1 ++ [id]).length : Nat) : Int) = nCtx := by
    rw [List.length_append, List.length_drop, List.length_singleton]
    omega
  by_cases heos : id = W.TokenEOS
  · have r2 := step_eos_stop W p nCtx (step W p nCtx s1) (by rw [r1]) (by rw [r1]; simp)
      (by rw [r1]; simp [heos])
    have hrun := run_trans W p nCtx h1
      (run_step W p nCtx rfl (run_step W p nCtx r2 (run_zero W p nCtx _)))
    refine ⟨_, _, s1.trace, win, hrun, ?_, ?_, ?_, ?_, ?_, ?_, ?_⟩
    · rw [r1, hid]; exact hout
    · rw [r1, hid]; exact hsam
    · rw [r1]; exact hlen2
    · rw [r1]; exact a5
    · intro h
      rw [r1]
      exact EvalBound_of_evalCalls_eq hev (a12 h)
    · intro _; rfl
    · intro h; rw [hid] at h; exact absurd heos h
  · have r2 := step_eos_go W p nCtx (step W p nCtx s1) (by rw [r1])
      (Or.inr (by rw [r1]; simpa using heos))
    have r3 := step_populate_skip W p nCtx { step W p nCtx s1 with pc := Phase.populate } rfl
      (by rw [r1]; exact hq1)
    obtain ⟨k2, s2, h2, b1, b2, b3, b4, b5, b6, b7, b8, b9, b10⟩ :=
      reach_loop W p nCtx
        { ({ step W p nCtx s1 with pc := Phase.populate } : State) with pc := Phase.provide }
        hI hC rfl
    have hrun := run_trans W p nCtx h1
      (run_step W p nCtx rfl (run_step W p nCtx r2 (run_step W p nCtx r3 h2)))
    rw [r1] at b2 b3 b4 b5 b6 b7 b8 b9 b10
    dsimp only at b2 b3 b4 b5 b6 b7 b8 b9 b10
    refine ⟨_, _, s1.trace, win, hrun, ?_, ?_, ?_, ?_, ?_, ?_, ?_⟩
    · rw [b8, hid]; exact hout
    · rw [b9, hid]; exact hsam
    · rw [b7]; exact hlen2
    · rw [b5]; exact a5
    · intro h
      exact EvalBound_of_evalCalls_eq (b10.trans hev) (a12 h)
    · intro h; rw [hid] at h; exact absurd h heos
    · intro _
      refine ⟨⟨b1, ?_, ?_, ?_, ?_⟩, ?_, ?_, ?_, ?_⟩
      · rw [b7]; exact hlen2
      · rw [b5, a5]; exact hK0
      · rw [b5, a5]; exact hK4
      · rw [b6]; exact a7
      · rw [b3]; exact hq1
      · rw [b2]; rfl
      · rw [b6]; exact a8
      · rw [b4, a4]

theorem inferInit_LoopHead (p : LLamaParams) (nPredict : Int) (prompt : List Token)
    (nCtx : Int) (hlen : (prompt.length : Int) ≤ nCtx - 4) :
    LoopHead nCtx (inferInit p nPredict prompt nCtx) := by
  rw [inferInit_ok p nPredict prompt nCtx hlen]
  refine ⟨rfl, ?_, ?_, ?_, le_refl _⟩
  · show (((List.replicate nCtx.toNat (0 : Token)).length : Nat) : Int) = nCtx
    rw [List.length_replicate]; omega
  · show 0 ≤ (if 0 ≤ p.NKeep ∧ p.NKeep ≤ (prompt.length : Int) then p.NKeep
      else (prompt.length : Int))
    split <;> omega
  · show (if 0 ≤ p.NKeep ∧ p.NKeep ≤ (prompt.length : Int) then p.NKeep
      else (prompt.length : Int)) ≤ nCtx - 4
    split <;> omega

/-- The loop on an empty queue with `n` tokens left to predict and a sampler
that never returns the end-of-text token: `n` tokens are sampled and emitted,
then the run returns nil. -/
theorem gen_loop (W : World) (p : LLamaParams) (nCtx : Int)
    (hE : ∀ tr t n k, W.llamaEval tr t n k = true)
    (hI : ∀ tr l b, W.fnIn tr l b = some [])
    (hC : ∀ tr, W.chInterject tr ≠ ChanRecv.value)
    (hS : ∀ tr w, W.llamaSample tr w ≠ W.TokenEOS)
    (hw1 : 1 ≤ p.RepeatLastN) (hw2 : p.RepeatLastN ≤ nCtx) (n : Nat) :
    ∀ s : State, LoopHead nCtx s → s.embedInput = [] → s.nRemain = (n : Int) →
      (s.nProcessed + (s.embed.length : Int) ≤ nCtx ∨
        (s.embed.length = 1 ∧ s.nProcessed = nCtx)) →
      ∃ k s' new, run W p nCtx k s = s' ∧ s'.pc = Phase.halted Outcome.ok ∧
        outputs s'.trace = outputs s.trace ++ new ∧
        sampled s'.trace = sampled s.trace ++ new ∧ new.length = n ∧
        (s'.lastNTokens.length : Int) = nCtx ∧
        (EvalBound nCtx s.trace → EvalBound nCtx s'.trace) := by
  induction n with
  | zero =>
    intro s hh hq hr hcap
    have r1 := step_loopCond_end W p nCtx s hh.1 (by simpa using hr)
    exact ⟨_, _, [], run_step W p nCtx r1 (run_zero W p nCtx _), rfl, by simp [State.halt],
      by simp [State.halt], rfl, hh.2.1, fun h => h⟩
  | succ n ih =>
    intro s hh hq hr hcap
    obtain ⟨k1, s1, tr, w, h1, c1, c2, c3, c4, c5, c6, c7⟩ :=
      gen_iteration W p nCtx s hE hI hC hw1 hw2 hh (by rw [hr]; push_cast; omega) hq hcap
    obtain ⟨d1, d2, d3, d4, d5⟩ := c7 (hS tr w)
    have hr1 : s1.nRemain = (n : Int) := by
      rw [d5, hr]
      push_cast
      rw [if_pos (by omega)]
      omega
    have hcap1 : s1.nProcessed + (s1.embed.length : Int) ≤ nCtx ∨
        (s1.embed.length = 1 ∧ s1.nProcessed = nCtx) := by
      by_cases hfull : s1.nProcessed = nCtx
      · exact Or.inr ⟨d3, hfull⟩
      · left; rw [d3]; push_cast; omega
    obtain ⟨k2, s2, new, h2, e1, e2, e3, e4, e5, e6⟩ := ih s1 d1 d2 hr1 hcap1
    refine ⟨_, _, W.llamaSample tr w :: new, run_trans W p nCtx h1 h2, e1, ?_, ?_, ?_, e5,
      fun h => e6 (c5 h)⟩
    · rw [e2, c1]; simp
    · rw [e3, c2]; simp
    · simp [e4]

/-- A run of `Infer` with `nPredict = N ≥ 0` in a world where `Eval` never
fails, the input provider returns no token, no interjection is signalled and
the sampler never returns the end-of-text token. -/
theorem Infer_emits_N (W : World) (p : LLamaParams) (prompt : List Token) (nCtx : Int)
    (N : Nat) (hlen : (prompt.length : Int) ≤ nCtx - 4)
    (hB : 1 ≤ p.NBatch) (hw1 : 1 ≤ p.RepeatLastN) (hw2 : p.RepeatLastN ≤ nCtx)
    (hE : ∀ tr t n k, W.llamaEval tr t n k = true)
    (hI : ∀ tr l b, W.fnIn tr l b = some [])
    (hS : ∀ tr w, W.llamaSample tr w ≠ W.TokenEOS)
    (hC : ∀ tr, W.chInterject tr ≠ ChanRecv.value) :
    ∃ k, (Infer W p (N : Int) prompt nCtx k).pc = Phase.halted Outcome.ok ∧
      (outputs (Infer W p (N : Int) prompt nCtx k).trace).length = N ∧
      outputs (Infer W p (N : Int) prompt nCtx k).trace =
        sampled (Infer W p (N : Int) prompt nCtx k).trace ∧
      ((Infer W p (N : Int) prompt nCtx k).lastNTokens.length : Int) = nCtx ∧
      EvalBound nCtx (Infer W p (N : Int) prompt nCtx k).trace := by
  have hh := inferInit_LoopHead p (N : Int) prompt nCtx hlen
  have h0 := inferInit_ok p (N : Int) prompt nCtx hlen
  have ht0 : (inferInit p (N : Int) prompt nCtx).trace = [] := by rw [h0]
  have hr0 : (inferInit p (N : Int) prompt nCtx).nRemain = (N : Int) := by rw [h0]
  have hb0 : EvalBound nCtx (inferInit p (N : Int) prompt nCtx).trace := by
    rw [ht0]; intro c hc; simp [evalCalls] at hc
  unfold Infer
  by_cases hN : N = 0
  · have r1 := step_loopCond_end W p nCtx _ hh.1 (by rw [hr0, hN]; rfl)
    refine ⟨1, ?_⟩
    rw [run_one, r1]
    refine ⟨rfl, ?_, ?_, hh.2.1, hb0⟩
    · show (outputs (inferInit p (N : Int) prompt nCtx).trace).length = N
      rw [ht0, hN]; rfl
    · show outputs (inferInit p (N : Int) prompt nCtx).trace =
        sampled (inferInit p (N : Int) prompt nCtx).trace
      rw [ht0]; rfl
  · obtain ⟨k1, s1, h1, a1, a2, a3, a4, a5, a6, a7, a8⟩ :=
      feed_prompt W p nCtx hE hI hC hB prompt.length (inferInit p (N : Int) prompt nCtx)
        (by rw [h0]) hh (by rw [hr0]; exact_mod_cast hN)
        (by rw [h0]; show (0 : Int) + (([] : List Token).length : Int) +
              (prompt.length : Int) ≤ nCtx
            simp only [List.length_nil, Nat.cast_zero]; omega)
    obtain ⟨k2, s2, new, h2, b1, b2, b3, b4, b5, b6⟩ :=
      gen_loop W p nCtx hE hI hC hS hw1 hw2 N s1 a1 a2 (by rw [a3, hr0]) (Or.inl a5)
    refine ⟨k1 + k2, ?_⟩
    rw [run_trans W p nCtx h1 h2]
    refine ⟨b1, ?_, ?_, b5, b6 (a8 hb0)⟩
    · rw [b2, a6, ht0]; simpa [outputs] using b4
    · rw [b2, b3, a6, a7, ht0]; rfl

/-- Bounded termination for a repeat window of at least one token: a
prompt-only run with `NPredict = N ≥ 0` on a prompt that passes the length
check, with batch size at least 1 and `1 ≤ RepeatLastN ≤ nCtx`, in which
`Eval` never fails, the sampler never returns the end-of-text token and no
interjection is signalled, ends with `return nil` after it called the output
sink exactly `N` times, with the sampled tokens in order; its history buffer
has length `nCtx` and every call of `Eval` stayed within the context. -/
theorem prompt_only_emits_N (W : World) (p : LLamaParams) (prompt : List Token)
    (hlen : (prompt.length : Int) ≤ W.ContextSize - 4) (hN : 0 ≤ p.NPredict)
    (hB : 1 ≤ p.NBatch) (hw1 : 1 ≤ p.RepeatLastN) (hw2 : p.RepeatLastN ≤ W.ContextSize)
    (hE : ∀ tr t n k, W.llamaEval tr t n k = true)
    (hS : ∀ tr w, W.llamaSample tr w ≠ W.TokenEOS)
    (hC : ∀ tr, W.chInterject tr ≠ ChanRecv.value) :
    ∃ k, (InferPromptOnly W p prompt k).pc = Phase.halted Outcome.ok ∧
      ((outputs (InferPromptOnly W p prompt k).trace).length : Int) = p.NPredict ∧
      outputs (InferPromptOnly W p prompt k).trace =
        sampled (InferPromptOnly W p prompt k).trace ∧
      ((InferPromptOnly W p prompt k).lastNTokens.length : Int) = W.ContextSize ∧
      EvalBound W.ContextSize (InferPromptOnly W p prompt k).trace := by
  obtain ⟨N, hNn⟩ := Int.eq_ofNat_of_zero_le hN
  obtain ⟨k, h1, h2, h3, h4, h5⟩ :=
    Infer_emits_N { W with fnIn := fun _ _ _ => some [] } p prompt W.ContextSize N hlen hB hw1
      hw2 hE (fun _ _ _ => rfl) hS hC
  refine ⟨k, ?_⟩
  unfold InferPromptOnly
  rw [hNn]
  exact ⟨h1, by rw [h2], h3, h4, h5⟩

/-- A run of `Infer` with `nPredict ≠ 0` whose sampler always returns the
end-of-text token. -/
theorem Infer_eos_once (W : World) (p : LLamaParams) (nPredict : Int) (prompt : List Token)
    (nCtx : Int) (hlen : (prompt.length : Int) ≤ nCtx - 4) (hN : nPredict ≠ 0)
    (hB : 1 ≤ p.NBatch) (hw1 : 1 ≤ p.RepeatLastN) (hw2 : p.RepeatLastN ≤ nCtx)
    (hE : ∀ tr t n k, W.llamaEval tr t n k = true)
    (hI : ∀ tr l b, W.fnIn tr l b = some [])
    (hS : ∀ tr w, W.llamaSample tr w = W.TokenEOS)
    (hC : ∀ tr, W.chInterject tr ≠ ChanRecv.value) :
    ∃ k, (Infer W p nPredict prompt nCtx k).pc = Phase.halted Outcome.ok ∧
      outputs (Infer W p nPredict prompt nCtx k).trace = [W.TokenEOS] ∧
      ∀ j, Infer W p nPredict prompt nCtx (k + j) = Infer W p nPredict prompt nCtx k := by
  have hh := inferInit_LoopHead p nPredict prompt nCtx hlen
  have h0 := inferInit_ok p nPredict prompt nCtx hlen
  have ht0 : (inferInit p nPredict prompt nCtx).trace = [] := by rw [h0]
  have hr0 : (inferInit p nPredict prompt nCtx).nRemain = nPredict := by rw [h0]
  obtain ⟨k1, s1, h1, a1, a2, a3, a4, a5, a6, a7, a8⟩ :=
    feed_prompt W p nCtx hE hI hC hB prompt.length (inferInit p nPredict prompt nCtx)
      (by rw [h0]) hh (by rw [hr0]; exact hN)
      (by rw [h0]; show (0 : Int) + (([] : List Token).length : Int) +
            (prompt.length : Int) ≤ nCtx
          simp only [List.length_nil, Nat.cast_zero]; omega)
  obtain ⟨k2, s2, tr, w, h2, c1, c2, c3, c4, c5, c6, c7⟩ :=
    gen_iteration W p nCtx s1 hE hI hC hw1 hw2 a1 (by rw [a3, hr0]; exact hN) a2 (Or.inl a5)
  have hpc := c6 (hS tr w)
  have hrun : Infer W p nPredict prompt nCtx (k1 + k2) = s2 := run_trans W p nCtx h1 h2
  refine ⟨k1 + k2, ?_, ?_, ?_⟩
  · rw [hrun]; exact hpc
  · rw [hrun, c1, a6, ht0, hS]; rfl
  · intro j
    unfold Infer at hrun ⊢
    rw [run_add, hrun]
    exact run_halted W p nCtx s2 _ hpc j

/-! ### The capacity in prompt-only runs -/

theorem EvalBound_snoc_other (nCtx : Int) (tr : List Event) (e : Event)
    (he : evalCalls [e] = []) (h : EvalBound nCtx tr) : EvalBound nCtx (tr ++ [e]) := by
  intro c hc
  rw [evalCalls_append, he, List.append_nil] at hc
  exact h c hc

theorem step_CapacityInv (W : World) (p : LLamaParams) (nCtx : Int)
    (hI : ∀ tr l b, W.fnIn tr l b = some []) (s : State) (h : CapacityInv nCtx s) :
    CapacityInv nCtx (step W p nCtx s) := by
  have ht := step_trans W p nCtx s
  generalize step W p nCtx s = s' at ht
  obtain ⟨hlen, hK0, hK4, hP, hev, hf⟩ := h
  unfold fitsContext at hf
  cases ht
  case stay o hpc => exact ⟨hlen, hK0, hK4, hP, hev, by unfold fitsContext; exact hf⟩
  case panic hpc => exact ⟨hlen, hK0, hK4, hP, hev, by simp [fitsContext, State.halt]⟩
  case loopEnd hpc hr => exact ⟨hlen, hK0, hK4, hP, hev, by simp [fitsContext, State.halt]⟩
  case eosStop hpc hr => exact ⟨hlen, hK0, hK4, hP, hev, by simp [fitsContext, State.halt]⟩
  case loopGo hpc hr =>
    rw [hpc] at hf
    exact ⟨hlen, hK0, hK4, hP, hev, by simpa [fitsContext] using hf⟩
  case evalSkip hpc he =>
    rw [hpc] at hf
    dsimp only at hf
    refine ⟨hlen, hK0, hK4, hP, hev, ?_⟩
    simp only [fitsContext, he, List.length_nil, Nat.cast_zero, add_zero]
    refine ⟨hP, ?_⟩
    rcases hf with hf | hf
    · right; simpa [he] using hf
    · left; exact hf.1
  case evalFits hpc he hfit =>
    rw [hpc] at hf
    dsimp only at hf
    refine ⟨hlen, hK0, hK4, hP, hev, ?_⟩
    simp only [fitsContext]
    refine ⟨hfit, ?_⟩
    rcases hf with hf | hf
    · right; exact hf
    · left; exact hf.1
  case swap keep hpc he hov hk =>
    rw [hpc] at hf
    dsimp only at hf
    have hq : s.embedInput = [] ∧ s.embed.length = 1 := by
      rcases hf with hf | hf
      · omega
      · exact hf
    have hPC : s.nProcessed = nCtx := by omega
    have hb := (goSlice_some hk).1
    have hkl := goSlice_length hk
    have hdiv : Int.tdiv (s.nProcessed - s.NKeep) 2 = (nCtx - s.NKeep) / 2 := by
      rw [hPC]; exact Int.tdiv_eq_ediv (by omega) (by decide)
    rw [hdiv] at hkl
    have hnew : s.NKeep + ((keep ++ s.embed).length : Int) ≤ nCtx := by
      rw [List.length_append, Nat.cast_add]
      omega
    refine ⟨?_, hK0, hK4, by show s.NKeep ≤ nCtx; omega, hev, ?_⟩
    · show ((s.lastNTokens.take (s.lastNTokens.length - s.embed.length) ++
        s.embed).length : Int) = nCtx
      rw [List.length_append, List.length_take]
      omega
    · simp only [fitsContext]
      exact ⟨hnew, Or.inl hq.1⟩
  case evalDone ok pc hpc he hok hpc2 =>
    rw [hpc] at hf
    dsimp only at hf
    refine ⟨hlen, hK0, hK4, hP, EvalBound_snoc_eval nCtx _ _ _ _ _ hev hf.1, ?_⟩
    cases ok
    · simp [fitsContext, hpc2]
    · simp only [fitsContext, hpc2, if_true]
      exact hf
  case advance hpc =>
    rw [hpc] at hf
    dsimp only at hf
    refine ⟨hlen, hK0, hK4, hf.1, hev, ?_⟩
    simp only [fitsContext]
    exact ⟨trivial, hf.2⟩
  case sampleSkip hpc hq =>
    rw [hpc] at hf
    dsimp only at hf
    refine ⟨hlen, hK0, hK4, hP, hev, ?_⟩
    simp only [fitsContext]
    left
    rcases hf.2 with h0 | h0
    · exact absurd h0 hq
    · simpa [hf.1] using h0
  case samplePanic w hpc hq =>
    exact ⟨hlen, hK0, hK4, hP, EvalBound_snoc_other nCtx _ _ (by simp [evalCalls]) hev,
      by simp [fitsContext]⟩
  case sampleDone w r hpc hq hw hwne hl hr =>
    refine ⟨?_, hK0, hK4, hP, ?_, ?_⟩
    · show ((s.lastNTokens.drop 1 ++ [W.llamaSample s.trace w]).length : Int) = nCtx
      rw [List.length_append, List.length_drop, List.length_singleton]
      omega
    · exact EvalBound_snoc_other nCtx _ _ (by simp [evalCalls])
        (EvalBound_snoc_other nCtx _ _ (by simp [evalCalls]) hev)
    · simp only [fitsContext]
      exact Or.inr ⟨hq, rfl⟩
  case eosGo hpc he =>
    rw [hpc] at hf
    exact ⟨hlen, hK0, hK4, hP, hev, by simpa [fitsContext] using hf⟩
  case popSkip hpc hq =>
    rw [hpc] at hf
    exact ⟨hlen, hK0, hK4, hP, hev, by simpa [fitsContext] using hf⟩
  case popDone b hpc hq hb hbl =>
    rw [hpc] at hf
    dsimp only at hf
    have hb2 : b ≤ s.embedInput.length := by omega
    refine ⟨?_, hK0, hK4, hP, hev, ?_⟩
    · show ((s.lastNTokens.drop b ++ s.embedInput.take b).length : Int) = nCtx
      rw [List.length_append, List.length_drop, List.length_take]
      omega
    · simp only [fitsContext]
      left
      rw [List.length_take, List.length_drop]
      rcases hf with hf | hf
      · omega
      · exact absurd hf.1 hq
  case provSkip hpc hq =>
    rw [hpc] at hf
    exact ⟨hlen, hK0, hK4, hP, hev, by simpa [fitsContext] using hf⟩
  case provEnd hpc hq hr =>
    exact ⟨hlen, hK0, hK4, hP, EvalBound_snoc_other nCtx _ _ (by simp [evalCalls]) hev,
      by simp [fitsContext]⟩
  case provIn i hpc hq hr =>
    rw [hpc] at hf
    have hi : i = [] := by
      have := hI s.trace s.lastNTokens false
      rw [hr] at this
      simpa using this
    subst hi
    refine ⟨hlen, hK0, hK4, hP, EvalBound_snoc_other nCtx _ _ (by simp [evalCalls]) hev, ?_⟩
    simpa [fitsContext] using hf
  case intNone r hpc hc hr =>
    rw [hpc] at hf
    refine ⟨hlen, hK0, hK4, hP, EvalBound_snoc_other nCtx _ _ (by simp [evalCalls]) hev, ?_⟩
    simpa [fitsContext] using hf
  case intEnd hpc hc hr =>
    exact ⟨hlen, hK0, hK4, hP, EvalBound_snoc_other nCtx _ _ (by simp [evalCalls])
      (EvalBound_snoc_other nCtx _ _ (by simp [evalCalls]) hev), by simp [fitsContext]⟩
  case intIn i hpc hc hr =>
    rw [hpc] at hf
    have hi : i = [] := by
      have := hI (s.trace ++ [Event.recv ChanRecv.value]) s.lastNTokens true
      rw [hr] at this
      simpa using this
    subst hi
    refine ⟨hlen, hK0, hK4, hP, EvalBound_snoc_other nCtx _ _ (by simp [evalCalls])
      (EvalBound_snoc_other nCtx _ _ (by simp [evalCalls]) hev), ?_⟩
    simpa [fitsContext] using hf

/-- The capacity bound holds in every prompt-only run: whatever `Eval`, the
sampler and the channel do, and for every batch size and repeat window, each
call of `Eval` is made with `n_past + len(tokens) ≤ nCtx`, and `nProcessed`
never exceeds `nCtx`. -/
theorem prompt_only_within_capacity (W : World) (p : LLamaParams) (prompt : List Token)
    (hlen : (prompt.length : Int) ≤ W.ContextSize - 4) (k : Nat) :
    EvalBound W.ContextSize (InferPromptOnly W p prompt k).trace ∧
    (InferPromptOnly W p prompt k).nProcessed ≤ W.ContextSize := by
  have h0 : CapacityInv W.ContextSize (inferInit p p.NPredict prompt W.ContextSize) := by
    obtain ⟨_, h2, h3, h4, _⟩ := inferInit_LoopHead p p.NPredict prompt W.ContextSize hlen
    refine ⟨h2, h3, h4, ?_, ?_, ?_⟩
    · rw [inferInit_ok p p.NPredict prompt W.ContextSize hlen]
      show (0 : Int) ≤ W.ContextSize
      omega
    · rw [inferInit_ok p p.NPredict prompt W.ContextSize hlen]
      intro c hc
      simp [evalCalls] at hc
    · rw [inferInit_ok p p.NPredict prompt W.ContextSize hlen]
      simp only [fitsContext, List.length_nil, Nat.cast_zero]
      left
      omega
  have h := run_invariant { W with fnIn := fun _ _ _ => some [] } p W.ContextSize
    (CapacityInv W.ContextSize)
    (step_CapacityInv { W with fnIn := fun _ _ _ => some [] } p W.ContextSize
      (fun _ _ _ => rfl)) _ h0 k
  exact ⟨h.2.2.2.2.1, h.2.2.2.1⟩

/-! ### Runs with user input that end at the first sample -/

theorem inputsAppended_length_snoc_other (tr : List Event) (e : Event)
    (he : inputsAppended [e] = []) :
    (inputsAppended (tr ++ [e])).length = (inputsAppended tr).length := by
  rw [inputsAppended_append, he, List.append_nil]

/-- The evaluate step (lines 59-64): it panics in the swap, or goes on to the
call of `Eval` with a non-empty batch, or has nothing to evaluate. -/
theorem step_evaluate_cases (W : World) (p : LLamaParams) (nCtx : Int) (s : State)
    (hpc : s.pc = Phase.evaluate) :
    (step W p nCtx s).pc = Phase.halted Outcome.panic ∨
    ((step W p nCtx s).embedInput = s.embedInput ∧ (step W p nCtx s).nRemain = s.nRemain ∧
      (step W p nCtx s).trace = s.trace ∧
      ((step W p nCtx s).pc = Phase.advance ∨
        ((step W p nCtx s).pc = Phase.evalCall ∧ (step W p nCtx s).embed ≠ []))) := by
  by_cases he : s.embed = []
  · rw [step_evaluate_skip W p nCtx s hpc he]
    exact Or.inr ⟨rfl, rfl, rfl, Or.inl rfl⟩
  · by_cases hfit : s.nProcessed + (s.embed.length : Int) ≤ nCtx
    · rw [step_evaluate_fits W p nCtx s hpc he hfit]
      exact Or.inr ⟨rfl, rfl, rfl, Or.inr ⟨rfl, he⟩⟩
    · have hpos : s.embed.length > 0 := List.length_pos.2 he
      unfold step
      rw [hpc]
      dsimp only
      rw [if_pos hpos, if_pos (by omega)]
      split
      · exact Or.inl rfl
      · next n e l hsw =>
        obtain ⟨keep, hk, hr⟩ := DefaultSwapContext_some hsw
        simp only [Prod.mk.injEq] at hr
        obtain ⟨rfl, rfl, rfl⟩ := hr
        exact Or.inr ⟨rfl, rfl, rfl, Or.inr ⟨rfl, by simp [he]⟩⟩

/-- The sample step (lines 75-87) on an empty queue: it panics, or one token
is sampled and emitted. -/
theorem step_sample_cases (W : World) (p : LLamaParams) (nCtx : Int) (s : State)
    (hpc : s.pc = Phase.sample) (hq : s.embedInput = []) :
    (step W p nCtx s).pc = Phase.halted Outcome.panic ∨
    ∃ w, (step W p nCtx s).pc = Phase.eosCheck ∧
      (step W p nCtx s).embed = [W.llamaSample s.trace w] ∧
      (step W p nCtx s).trace = s.trace ++ [Event.sample w (W.llamaSample s.trace w)] ++
        [Event.output (W.llamaSample s.trace w)] := by
  unfold step
  rw [hpc]
  dsimp only
  rw [if_pos (by simp [hq])]
  split
  · exact Or.inl rfl
  · next w hw =>
    unfold SampleTopPTopK
    split
    · exact Or.inl rfl
    · next id hid =>
      split at hid
      · simp at hid
      · simp only [Option.some.injEq] at hid
        subst hid
        split
        · exact Or.inl rfl
        · exact Or.inr ⟨w, rfl, rfl, rfl⟩

/-- The populate step (lines 95-101) on a non-empty queue with a batch size of
at least 1: it panics, or takes at least one token off the queue. -/
theorem step_populate_cases (W : World) (p : LLamaParams) (nCtx : Int) (s : State)
    (hB : 1 ≤ p.NBatch) (hpc : s.pc = Phase.populate) (hq : s.embedInput ≠ []) :
    (step W p nCtx s).pc = Phase.halted Outcome.panic ∨
    ((step W p nCtx s).pc = Phase.provide ∧ (step W p nCtx s).nRemain = s.nRemain ∧
      (step W p nCtx s).trace = s.trace ∧
      (step W p nCtx s).embedInput.length < s.embedInput.length) := by
  have hpos : s.embedInput.length > 0 := List.length_pos.2 hq
  unfold step
  rw [hpc]
  dsimp only
  rw [if_pos hpos]
  split
  · exact Or.inl rfl
  · next e he =>
    split
    · exact Or.inl rfl
    · next l hl =>
      split
      · exact Or.inl rfl
      · next q hq' =>
        have e3 := goSlice_to_end hq'
        refine Or.inr ⟨rfl, rfl, rfl, ?_⟩
        show q.length < s.embedInput.length
        rw [e3, List.length_drop]
        omega

/-- From the head of the loop to the sample step in a run that does not panic
and whose `Eval` never fails. -/
theorem reach_sample_quiet (W : World) (p : LLamaParams) (nCtx : Int) (s : State)
    (hE : ∀ tr t n k, W.llamaEval tr t n k = true)
    (hnp : ∀ j, (run W p nCtx j s).pc ≠ Phase.halted Outcome.panic)
    (hpc : s.pc = Phase.loopCond) (hr : s.nRemain ≠ 0) :
    ∃ k s1, run W p nCtx k s = s1 ∧ s1.pc = Phase.sample ∧ s1.embed = [] ∧
      s1.nRemain = s.nRemain ∧ s1.embedInput = s.embedInput ∧
      outputs s1.trace = outputs s.trace ∧
      (inputsAppended s1.trace).length = (inputsAppended s.trace).length := by
  have r1 := step_loopCond_go W p nCtx s hpc hr
  have h2 : run W p nCtx 2 s = step W p nCtx { s with pc := Phase.evaluate } :=
    run_step W p nCtx r1 (run_one W p nCtx _)
  rcases step_evaluate_cases W p nCtx { s with pc := Phase.evaluate } rfl with
    hp | ⟨a1, a2, a3, hp | ⟨hp, hne⟩⟩
  · exact absurd (by rw [h2]; exact hp) (hnp 2)
  · have r3 := step_advance W p nCtx _ hp
    refine ⟨3, _, run_trans W p nCtx h2 (run_step W p nCtx r3 (run_zero W p nCtx _)),
      rfl, rfl, a2, a1, ?_, ?_⟩
    · show outputs (step W p nCtx { s with pc := Phase.evaluate }).trace = outputs s.trace
      rw [a3]
    · show (inputsAppended (step W p nCtx { s with pc := Phase.evaluate }).trace).length = _
      rw [a3]
  · have r3 := step_evalCall_ok W p nCtx _ hp hne (hE _ _ _ _)
    have r4 := step_advance W p nCtx
      { step W p nCtx { s with pc := Phase.evaluate } with
        trace := (step W p nCtx { s with pc := Phase.evaluate }).trace ++
          [Event.eval (step W p nCtx { s with pc := Phase.evaluate }).embed
            (step W p nCtx { s with pc := Phase.evaluate }).nProcessed p.NThreads true],
        pc := Phase.advance } rfl
    refine ⟨4, _, run_trans W p nCtx h2
      (run_step W p nCtx r3 (run_step W p nCtx r4 (run_zero W p nCtx _))),
      rfl, rfl, a2, a1, ?_, ?_⟩
    · show outputs ((step W p nCtx { s with pc := Phase.evaluate }).trace ++ _) = _
      rw [outputs_append, a3]
      simp [outputs]
    · show (inputsAppended ((step W p nCtx { s with pc := Phase.evaluate }).trace ++ _)).length
        = _
      rw [inputsAppended_length_snoc_other _ _ (by simp [inputsAppended]), a3]

/-- The sample step on an empty queue with a sampler that returns the
end-of-text token: the token is emitted and the run returns nil. -/
theorem sample_eos_ends (W : World) (p : LLamaParams) (nCtx : Int) (s : State)
    (hS : ∀ tr w, W.llamaSample tr w = W.TokenEOS)
    (hnp : ∀ j, (run W p nCtx j s).pc ≠ Phase.halted Outcome.panic)
    (hpc : s.pc = Phase.sample) (hq : s.embedInput = []) :
    ∃ k, (run W p nCtx k s).pc = Phase.halted Outcome.ok ∧
      outputs (run W p nCtx k s).trace = outputs s.trace ++ [W.TokenEOS] := by
  rcases step_sample_cases W p nCtx s hpc hq with hp | ⟨w, b1, b2, b3⟩
  · exact absurd hp (hnp 1)
  · rw [hS] at b2 b3
    have r2 := step_eos_stop W p nCtx (step W p nCtx s) b1 (by rw [b2]; simp)
      (by rw [b2]; rfl)
    refine ⟨2, ?_⟩
    rw [run_step W p nCtx rfl (run_step W p nCtx r2 (run_zero W p nCtx _))]
    refine ⟨rfl, ?_⟩
    show outputs (step W p nCtx s).trace = _
    rw [b3, outputs_append, outputs_append]
    simp [outputs]

/-- The rest of a turn of the loop on a non-empty queue: a batch is taken
off the queue, and either the queue is shorter and the input provider was not
called, or the queue is what the provider returned at its next call. -/
theorem reach_head_fed (W : World) (p : LLamaParams) (nCtx : Int) (s : State)
    (hT : ∀ tr l b, W.fnIn tr l b ≠ none)
    (hC : ∀ tr, W.chInterject tr ≠ ChanRecv.value)
    (hB : 1 ≤ p.NBatch)
    (hnp : ∀ j, (run W p nCtx j s).pc ≠ Phase.halted Outcome.panic)
    (hpc : s.pc = Phase.sample) (he : s.embed = []) (hq : s.embedInput ≠ []) :
    ∃ k s', run W p nCtx k s = s' ∧ s'.pc = Phase.loopCond ∧ s'.nRemain = s.nRemain ∧
      outputs s'.trace = outputs s.trace ∧
      ((s'.embedInput.length < s.embedInput.length ∧
          (inputsAppended s'.trace).length = (inputsAppended s.trace).length) ∨
        ((inputsAppended s'.trace).length = (inputsAppended s.trace).length + 1 ∧
          ∃ tr l, (inputsAppended tr).length = (inputsAppended s.trace).length ∧
            W.fnIn tr l false = some s'.embedInput)) := by
  have r1 := step_sample_skip W p nCtx s hpc hq
  have r2 := step_eos_go W p nCtx { s with pc := Phase.eosCheck } rfl (Or.inl he)
  have h3 : run W p nCtx 3 s = step W p nCtx { s with pc := Phase.populate } :=
    run_step W p nCtx r1 (run_step W p nCtx r2 (run_one W p nCtx _))
  rcases step_populate_cases W p nCtx { s with pc := Phase.populate } hB rfl hq with
    hp | ⟨c1, c2, c3, c4⟩
  · exact absurd (by rw [h3]; exact hp) (hnp 3)
  · generalize step W p nCtx { s with pc := Phase.populate } = s3 at h3 c1 c2 c3 c4
    change s3.embedInput.length < s.embedInput.length at c4
    change s3.nRemain = s.nRemain at c2
    change s3.trace = s.trace at c3
    by_cases hq3 : s3.embedInput = []
    · -- the queue is drained: the input provider is called
      obtain ⟨i, hi⟩ := Option.ne_none_iff_exists'.1 (hT s3.trace s3.lastNTokens false)
      have r4 := step_provide_in W p nCtx s3 i c1 hq3 hi
      have r5 := step_interject_none W p nCtx
        { s3 with trace := s3.trace ++ [Event.input s3.lastNTokens false (some i)],
                  embedInput := s3.embedInput ++ i, pc := Phase.interject } rfl (hC _)
      refine ⟨_, _, run_trans W p nCtx h3
        (run_step W p nCtx r4 (run_step W p nCtx r5 (run_zero W p nCtx _))),
        rfl, c2, ?_, Or.inr ⟨?_, s3.trace, s3.lastNTokens, by rw [c3], ?_⟩⟩
      · show outputs (s3.trace ++ [Event.input s3.lastNTokens false (some i)] ++ _) = _
        rw [outputs_append, outputs_append, c3]
        simp [outputs]
      · show (inputsAppended
          (s3.trace ++ [Event.input s3.lastNTokens false (some i)] ++ _)).length = _
        rw [inputsAppended_append, inputsAppended_append, c3]
        simp [inputsAppended]
      · show W.fnIn s3.trace s3.lastNTokens false = some (s3.embedInput ++ i)
        rw [hq3, List.nil_append]; exact hi
    · have r4 := step_provide_skip W p nCtx s3 c1 hq3
      have r5 := step_interject_none W p nCtx { s3 with pc := Phase.interject } rfl (hC _)
      refine ⟨_, _, run_trans W p nCtx h3
        (run_step W p nCtx r4 (run_step W p nCtx r5 (run_zero W p nCtx _))),
        rfl, c2, ?_, Or.inl ⟨c4, ?_⟩⟩
      · show outputs (s3.trace ++ _) = _
        rw [outputs_append, c3]
        simp [outputs]
      · show (inputsAppended (s3.trace ++ _)).length = _
        rw [inputsAppended_length_snoc_other _ _ (by simp [inputsAppended]), c3]

theorem run_no_panic_shift (W : World) (p : LLamaParams) (nCtx : Int) {s s1 : State} {k : Nat}
    (h : run W p nCtx k s = s1)
    (hnp : ∀ j, (run W p nCtx j s).pc ≠ Phase.halted Outcome.panic) :
    ∀ j, (run W p nCtx j s1).pc ≠ Phase.halted Outcome.panic := by
  intro j
  rw [← h, ← run_add]
  exact hnp (k + j)

/-- The loop of a run that does not panic, with a sampler that returns the
end-of-text token and an input provider that never returns the terminate
signal and returns no token from its `M`-th call on: after finitely many
steps the end-of-text token is emitted, once, and the run returns nil. -/
theorem eos_loop (W : World) (p : LLamaParams) (nCtx : Int) (M : Nat)
    (hE : ∀ tr t n k, W.llamaEval tr t n k = true)
    (hS : ∀ tr w, W.llamaSample tr w = W.TokenEOS)
    (hC : ∀ tr, W.chInterject tr ≠ ChanRecv.value)
    (hT : ∀ tr l b, W.fnIn tr l b ≠ none)
    (hQ : ∀ tr l b, M ≤ (inputsAppended tr).length → W.fnIn tr l b = some [])
    (hB : 1 ≤ p.NBatch) (n : Nat) :
    ∀ (m : Nat) (s : State), M - (inputsAppended s.trace).length = n →
      s.embedInput.length = m →
      (∀ j, (run W p nCtx j s).pc ≠ Phase.halted Outcome.panic) →
      s.pc = Phase.loopCond → s.nRemain ≠ 0 → outputs s.trace = [] →
      ∃ k, (run W p nCtx k s).pc = Phase.halted Outcome.ok ∧
        outputs (run W p nCtx k s).trace = [W.TokenEOS] := by
  induction n using Nat.strong_induction_on with
  | _ n ihn =>
    intro m
    induction m using Nat.strong_induction_on with
    | _ m ihm =>
      intro s hn hm hnp hpc hr ho
      obtain ⟨k1, s1, h1, a1, a2, a3, a4, a5, a6⟩ :=
        reach_sample_quiet W p nCtx s hE hnp hpc hr
      have hnp1 := run_no_panic_shift W p nCtx h1 hnp
      by_cases hq : s1.embedInput = []
      · obtain ⟨k2, b1, b2⟩ := sample_eos_ends W p nCtx s1 hS hnp1 a1 hq
        refine ⟨k1 + k2, ?_⟩
        rw [run_add, h1]
        exact ⟨b1, by rw [b2, a5, ho]; rfl⟩
      · obtain ⟨k2, s2, h2, c1, c2, c3, c4⟩ :=
          reach_head_fed W p nCtx s1 hT hC hB hnp1 a1 a2 hq
        have hnp2 := run_no_panic_shift W p nCtx h2 hnp1
        have hr2 : s2.nRemain ≠ 0 := by rw [c2, a3]; exact hr
        have ho2 : outputs s2.trace = [] := by rw [c3, a5]; exact ho
        have hqpos : 0 < s1.embedInput.length := List.length_pos.2 hq
        have hfin : ∃ k, (run W p nCtx k s2).pc = Phase.halted Outcome.ok ∧
            outputs (run W p nCtx k s2).trace = [W.TokenEOS] := by
          rcases c4 with ⟨d1, d2⟩ | ⟨d1, tr, l, d2, d3⟩
          · exact ihm s2.embedInput.length (by rw [← hm, ← a4]; exact d1) s2
              (by rw [d2, a6]; exact hn) rfl hnp2 c1 hr2 ho2
          · by_cases hM : M ≤ (inputsAppended s.trace).length
            · have hnil : s2.embedInput = [] := by
                have := hQ tr l false (by rw [d2, a6]; exact hM)
                rw [d3] at this
                simpa using this
              exact ihm s2.embedInput.length
                (by rw [hnil, ← hm, ← a4]; exact hqpos) s2
                (by rw [d1, a6]; omega) rfl hnp2 c1 hr2 ho2
            · exact ihn (M - (inputsAppended s2.trace).length)
                (by rw [d1, a6]; omega) s2.embedInput.length s2 rfl rfl hnp2 c1 hr2 ho2
        obtain ⟨k3, e1, e2⟩ := hfin
        refine ⟨k1 + (k2 + k3), ?_⟩
        rw [run_add, h1, run_add, h2]
        exact ⟨e1, e2⟩

/-- A run of `Infer` that does not panic, with `nPredict ≠ 0`, batch size at
least 1, a sampler that returns the end-of-text token and an input provider
that never returns the terminate signal and returns no token from its `M`-th
call on. -/
theorem Infer_eos_with_input (W : World) (p : LLamaParams) (nPredict : Int)
    (prompt : List Token) (nCtx : Int) (M : Nat)
    (hlen : (prompt.length : Int) ≤ nCtx - 4) (hN : nPredict ≠ 0) (hB : 1 ≤ p.NBatch)
    (hE : ∀ tr t n k, W.llamaEval tr t n k = true)
    (hS : ∀ tr w, W.llamaSample tr w = W.TokenEOS)
    (hC : ∀ tr, W.chInterject tr ≠ ChanRecv.value)
    (hT : ∀ tr l b, W.fnIn tr l b ≠ none)
    (hQ : ∀ tr l b, M ≤ (inputsAppended tr).length → W.fnIn tr l b = some [])
    (hnp : ∀ k, (Infer W p nPredict prompt nCtx k).pc ≠ Phase.halted Outcome.panic) :
    ∃ k, (Infer W p nPredict prompt nCtx k).pc = Phase.halted Outcome.ok ∧
      outputs (Infer W p nPredict prompt nCtx k).trace = [W.TokenEOS] ∧
      ∀ j, Infer W p nPredict prompt nCtx (k + j) = Infer W p nPredict prompt nCtx k := by
  have h0 := inferInit_ok p nPredict prompt nCtx hlen
  obtain ⟨k, h1, h2⟩ := eos_loop W p nCtx M hE hS hC hT hQ hB _ _
    (inferInit p nPredict prompt nCtx) rfl rfl hnp (by rw [h0]) (by rw [h0]; exact hN)
    (by rw [h0]; rfl)
  refine ⟨k, h1, h2, fun j => ?_⟩
  unfold Infer
  rw [run_add]
  exact run_halted W p nCtx _ _ h1 j

/-- C4 (amended). EOS termination: for every `nPredict ≠ 0` and every prompt
that passes the length check, a run of `Infer` with batch size at least 1
that does not end in a run-time panic, in which the sampler always returns
the end-of-text token, `Eval` never fails, no interjection is signalled, and
the input provider never returns the terminate signal and returns no token
from its `M`-th call on (before that it may return any tokens), calls the
output sink exactly once, with the end-of-text token, and returns nil. -/
theorem eos_run_emits_once (W : World) (p : LLamaParams) (nPredict : Int)
    (prompt : List Token) (nCtx : Int) (M : Nat)
    (hlen : (prompt.length : Int) ≤ nCtx - 4) (hN : nPredict ≠ 0) (hB : 1 ≤ p.NBatch)
    (hE : ∀ tr t n k, W.llamaEval tr t n k = true)
    (hS : ∀ tr w, W.llamaSample tr w = W.TokenEOS)
    (hC : ∀ tr, W.chInterject tr ≠ ChanRecv.value)
    (hT : ∀ tr l b, W.fnIn tr l b ≠ none)
    (hQ : ∀ tr l b, M ≤ (inputsAppended tr).length → W.fnIn tr l b = some [])
    (hnp : ∀ k, (Infer W p nPredict prompt nCtx k).pc ≠ Phase.halted Outcome.panic) :
    ∃ k, (Infer W p nPredict prompt nCtx k).pc = Phase.halted Outcome.ok ∧
      outputs (Infer W p nPredict prompt nCtx k).trace = [W.TokenEOS] ∧
      ∀ j, Infer W p nPredict prompt nCtx (k + j) = Infer W p nPredict prompt nCtx k :=
  Infer_eos_with_input W p nPredict prompt nCtx M hlen hN hB hE hS hC hT hQ hnp

/-! ### Input that fits into the context -/

theorem step_evalCall_fail (W : World) (p : LLamaParams) (nCtx : Int) (s : State)
    (hpc : s.pc = Phase.evalCall) (he : s.embed ≠ [])
    (hok : W.llamaEval s.trace s.embed s.nProcessed p.NThreads = false) :
    step W p nCtx s =
      { s with trace := s.trace ++ [Event.eval s.embed s.nProcessed p.NThreads false],
               pc := Phase.halted Outcome.evalFailed } := by
  unfold step; rw [hpc]; dsimp only
  unfold Eval
  rw [if_neg (by simpa using he), hok]
  rfl

theorem step_provide_end (W : World) (p : LLamaParams) (nCtx : Int) (s : State)
    (hpc : s.pc = Phase.provide) (hq : s.embedInput = [])
    (hi : W.fnIn s.trace s.lastNTokens false = none) :
    step W p nCtx s =
      { s with trace := s.trace ++ [Event.input s.lastNTokens false none],
               pc := Phase.halted Outcome.ok } := by
  unfold step; rw [hpc]; dsimp only
  rw [if_pos (by simp [hq])]
  unfold callInput
  dsimp only
  rw [hi]
  rfl

theorem step_interject_end (W : World) (p : LLamaParams) (nCtx : Int) (s : State)
    (hpc : s.pc = Phase.interject) (hc : W.chInterject s.trace = ChanRecv.value)
    (hi : W.fnIn (s.trace ++ [Event.recv ChanRecv.value]) s.lastNTokens true = none) :
    step W p nCtx s =
      { s with trace := s.trace ++ [Event.recv ChanRecv.value] ++
                 [Event.input s.lastNTokens true none],
               pc := Phase.halted Outcome.ok } := by
  unfold step; rw [hpc]; dsimp only
  rw [hc]
  dsimp only
  unfold callInput
  dsimp only
  rw [hi]
  rfl

theorem step_interject_in (W : World) (p : LLamaParams) (nCtx : Int) (s : State)
    (i : List Token)
    (hpc : s.pc = Phase.interject) (hc : W.chInterject s.trace = ChanRecv.value)
    (hi : W.fnIn (s.trace ++ [Event.recv ChanRecv.value]) s.lastNTokens true = some i) :
    step W p nCtx s =
      { s with trace := s.trace ++ [Event.recv ChanRecv.value] ++
                 [Event.input s.lastNTokens true (some i)],
               embedInput := s.embedInput ++ i, pc := Phase.loopCond } := by
  unfold step; rw [hpc]; dsimp only
  rw [hc]
  dsimp only
  unfold callInput
  dsimp only
  rw [hi]
  dsimp only
  rw [appendInput_some]

theorem tokensGiven_snoc_other (prompt : List Token) (tr : List Event) (e : Event)
    (he : inputsAppended [e] = []) : tokensGiven prompt (tr ++ [e]) = tokensGiven prompt tr := by
  unfold tokensGiven
  rw [inputsAppended_append, he, List.append_nil]

theorem tokensGiven_snoc_input (prompt : List Token) (tr : List Event) (l : List Token)
    (b : Bool) (i : List Token) :
    tokensGiven prompt (tr ++ [Event.input l b (some i)]) =
      tokensGiven prompt tr + (i.length : Int) := by
  unfold tokensGiven
  rw [inputsAppended_append]
  simp [inputsAppended]
  omega

theorem step_FitInv (W : World) (p : LLamaParams) (nCtx : Int) (prompt : List Token)
    (hS : ∀ tr w, W.llamaSample tr w = W.TokenEOS)
    (hB : 0 ≤ p.NBatch) (hw1 : 1 ≤ p.RepeatLastN) (hw2 : p.RepeatLastN ≤ nCtx)
    (hfit : ∀ tr l b i, W.fnIn tr l b = some i → tokensGiven prompt tr ≤ nCtx →
      tokensGiven prompt tr + (i.length : Int) ≤ nCtx)
    (s : State) (h : FitInv W nCtx prompt s) : FitInv W nCtx prompt (step W p nCtx s) := by
  obtain ⟨hlen, hm⟩ := h
  cases hpc : s.pc with
  | loopCond =>
    rw [hpc] at hm
    by_cases hr : s.nRemain = 0
    · rw [step_loopCond_end W p nCtx s hpc hr]
      exact ⟨hlen, by simp [State.halt]⟩
    · rw [step_loopCond_go W p nCtx s hpc hr]
      exact ⟨hlen, hm⟩
  | evaluate =>
    rw [hpc] at hm
    by_cases he : s.embed = []
    · rw [step_evaluate_skip W p nCtx s hpc he]
      exact ⟨hlen, hm⟩
    · have hfits : s.nProcessed + (s.embed.length : Int) ≤ nCtx := by
        obtain ⟨h1, h2, h3⟩ := hm
        omega
      rw [step_evaluate_fits W p nCtx s hpc he hfits]
      exact ⟨hlen, he, hm⟩
  | evalCall =>
    rw [hpc] at hm
    obtain ⟨he, h1, h2, h3⟩ := hm
    cases hok : W.llamaEval s.trace s.embed s.nProcessed p.NThreads
    · rw [step_evalCall_fail W p nCtx s hpc he hok]
      exact ⟨hlen, by simp⟩
    · rw [step_evalCall_ok W p nCtx s hpc he hok]
      refine ⟨hlen, h1, ?_, ?_⟩
      · rw [tokensGiven_snoc_other _ _ _ (by simp [inputsAppended])]; exact h2
      · rw [tokensGiven_snoc_other _ _ _ (by simp [inputsAppended])]; exact h3
  | advance =>
    rw [hpc] at hm
    obtain ⟨h1, h2, h3⟩ := hm
    rw [step_advance W p nCtx s hpc]
    refine ⟨hlen, rfl, ?_, ?_, h3⟩
    · show 0 ≤ s.nProcessed + (s.embed.length : Int)
      omega
    · show s.nProcessed + (s.embed.length : Int) + (([] : List Token).length : Int) +
        (s.embedInput.length : Int) ≤ tokensGiven prompt s.trace
      simp only [List.length_nil, Nat.cast_zero, add_zero]
      exact h2
  | sample =>
    rw [hpc] at hm
    obtain ⟨he, h1, h2, h3⟩ := hm
    by_cases hq : s.embedInput = []
    · rw [step_sample_done W p nCtx s hpc hq hlen hw1 hw2]
      refine ⟨?_, Or.inl (by rw [hS])⟩
      show ((s.lastNTokens.drop 1 ++ [_]).length : Int) = nCtx
      rw [List.length_append, List.length_drop, List.length_singleton]
      omega
    · rw [step_sample_skip W p nCtx s hpc hq]
      exact ⟨hlen, Or.inr ⟨he, h1, h2, h3⟩⟩
  | eosCheck =>
    rw [hpc] at hm
    rcases hm with he | ⟨he, hm⟩
    · rw [step_eos_stop W p nCtx s hpc (by rw [he]; simp) (by rw [he]; rfl)]
      exact ⟨hlen, by simp [State.halt]⟩
    · rw [step_eos_go W p nCtx s hpc (Or.inl he)]
      exact ⟨hlen, hm⟩
  | populate =>
    rw [hpc] at hm
    obtain ⟨h1, h2, h3⟩ := hm
    by_cases hq : s.embedInput = []
    · rw [step_populate_skip W p nCtx s hpc hq]
      exact ⟨hlen, h1, h2, h3⟩
    · have hbl : (min p.NBatch (s.embedInput.length : Int)).toNat ≤ s.lastNTokens.length := by
        omega
      have hbq : (min p.NBatch (s.embedInput.length : Int)).toNat ≤ s.embedInput.length := by
        omega
      rw [step_populate_done W p nCtx s (min p.NBatch (s.embedInput.length : Int)).toNat hpc hq
        (by omega) hbl]
      refine ⟨?_, h1, ?_, h3⟩
      · show ((s.lastNTokens.drop _ ++ s.embedInput.take _).length : Int) = nCtx
        rw [List.length_append, List.length_drop, List.length_take]
        omega
      · show s.nProcessed + ((s.embedInput.take _).length : Int) +
          ((s.embedInput.drop _).length : Int) ≤ tokensGiven prompt s.trace
        rw [List.length_take, List.length_drop]
        omega
  | provide =>
    rw [hpc] at hm
    obtain ⟨h1, h2, h3⟩ := hm
    by_cases hq : s.embedInput = []
    · cases hi : W.fnIn s.trace s.lastNTokens false with
      | none =>
        rw [step_provide_end W p nCtx s hpc hq hi]
        exact ⟨hlen, by simp⟩
      | some i =>
        rw [step_provide_in W p nCtx s i hpc hq hi]
        have hb := hfit _ _ _ _ hi h3
        refine ⟨hlen, h1, ?_, ?_⟩
        · show s.nProcessed + (s.embed.length : Int) + ((s.embedInput ++ i).length : Int) ≤
            tokensGiven prompt (s.trace ++ [Event.input s.lastNTokens false (some i)])
          rw [tokensGiven_snoc_input, List.length_append, Nat.cast_add]
          omega
        · show tokensGiven prompt (s.trace ++ [Event.input s.lastNTokens false (some i)]) ≤ nCtx
          rw [tokensGiven_snoc_input]
          exact hb
    · rw [step_provide_skip W p nCtx s hpc hq]
      exact ⟨hlen, h1, h2, h3⟩
  | interject =>
    rw [hpc] at hm
    obtain ⟨h1, h2, h3⟩ := hm
    by_cases hc : W.chInterject s.trace = ChanRecv.value
    · have ht : tokensGiven prompt (s.trace ++ [Event.recv ChanRecv.value]) =
          tokensGiven prompt s.trace :=
        tokensGiven_snoc_other _ _ _ (by simp [inputsAppended])
      cases hi : W.fnIn (s.trace ++ [Event.recv ChanRecv.value]) s.lastNTokens true with
      | none =>
        rw [step_interject_end W p nCtx s hpc hc hi]
        exact ⟨hlen, by simp⟩
      | some i =>
        rw [step_interject_in W p nCtx s i hpc hc hi]
        have hb := hfit _ _ _ _ hi (by rw [ht]; exact h3)
        rw [ht] at hb
        refine ⟨hlen, h1, ?_, ?_⟩
        · show s.nProcessed + (s.embed.length : Int) + ((s.embedInput ++ i).length : Int) ≤
            tokensGiven prompt (s.trace ++ [Event.recv ChanRecv.value] ++
              [Event.input s.lastNTokens true (some i)])
          rw [tokensGiven_snoc_input, ht, List.length_append, Nat.cast_add]
          omega
        · show tokensGiven prompt (s.trace ++ [Event.recv ChanRecv.value] ++
            [Event.input s.lastNTokens true (some i)]) ≤ nCtx
          rw [tokensGiven_snoc_input, ht]
          exact hb
    · rw [step_interject_none W p nCtx s hpc hc]
      refine ⟨hlen, h1, ?_, ?_⟩
      · show _ ≤ tokensGiven prompt (s.trace ++ [Event.recv (W.chInterject s.trace)])
        rw [tokensGiven_snoc_other _ _ _ (by simp [inputsAppended])]
        exact h2
      · show tokensGiven prompt (s.trace ++ [Event.recv (W.chInterject s.trace)]) ≤ nCtx
        rw [tokensGiven_snoc_other _ _ _ (by simp [inputsAppended])]
        exact h3
  | halted o =>
    rw [step_halted W p nCtx s o hpc]
    exact ⟨hlen, by rw [hpc]; rw [hpc] at hm; exact hm⟩

/-- A run whose sampler returns the end-of-text token never panics when the
repeat window is within `1 .. nCtx`, the batch size is not negative, and the
prompt together with everything the input provider returns fits into the
context (`hfit`: what the provider returns keeps the tokens given within
`nCtx`). -/
theorem no_panic_of_fit (W : World) (p : LLamaParams) (nPredict : Int)
    (prompt : List Token) (nCtx : Int)
    (hlen : (prompt.length : Int) ≤ nCtx - 4)
    (hS : ∀ tr w, W.llamaSample tr w = W.TokenEOS)
    (hB : 0 ≤ p.NBatch) (hw1 : 1 ≤ p.RepeatLastN) (hw2 : p.RepeatLastN ≤ nCtx)
    (hfit : ∀ tr l b i, W.fnIn tr l b = some i → tokensGiven prompt tr ≤ nCtx →
      tokensGiven prompt tr + (i.length : Int) ≤ nCtx) :
    ∀ k, (Infer W p nPredict prompt nCtx k).pc ≠ Phase.halted Outcome.panic := by
  intro k
  have h0 : FitInv W nCtx prompt (inferInit p nPredict prompt nCtx) := by
    have hh := inferInit_LoopHead p nPredict prompt nCtx hlen
    refine ⟨hh.2.1, ?_⟩
    rw [inferInit_ok p nPredict prompt nCtx hlen]
    refine ⟨le_refl _, ?_, ?_⟩
    · show (0 : Int) + (([] : List Token).length : Int) + (prompt.length : Int) ≤
        tokensGiven prompt []
      simp [tokensGiven, inputsAppended]
    · show tokensGiven prompt [] ≤ nCtx
      simp only [tokensGiven, inputsAppended, List.filterMap_nil, List.flatten_nil,
        List.length_nil, Nat.cast_zero, add_zero]
      omega
  have h := run_invariant W p nCtx (FitInv W nCtx prompt)
    (step_FitInv W p nCtx prompt hS hB hw1 hw2 hfit) _ h0 k
  intro hp
  have h2 := h.2
  unfold Infer at hp
  rw [hp] at h2
  exact h2 rfl

/-- The run of C4 never panics when the repeat window is within `1 .. nCtx`
and the prompt together with the input fits into the context: then it emits
the end-of-text token once and returns nil. -/
theorem eos_run_with_input_that_fits (W : World) (p : LLamaParams) (nPredict : Int)
    (prompt : List Token) (nCtx : Int) (M : Nat)
    (hlen : (prompt.length : Int) ≤ nCtx - 4) (hN : nPredict ≠ 0) (hB : 1 ≤ p.NBatch)
    (hw1 : 1 ≤ p.RepeatLastN) (hw2 : p.RepeatLastN ≤ nCtx)
    (hE : ∀ tr t n k, W.llamaEval tr t n k = true)
    (hS : ∀ tr w, W.llamaSample tr w = W.TokenEOS)
    (hC : ∀ tr, W.chInterject tr ≠ ChanRecv.value)
    (hT : ∀ tr l b, W.fnIn tr l b ≠ none)
    (hQ : ∀ tr l b, M ≤ (inputsAppended tr).length → W.fnIn tr l b = some [])
    (hfit : ∀ tr l b i, W.fnIn tr l b = some i → tokensGiven prompt tr ≤ nCtx →
      tokensGiven prompt tr + (i.length : Int) ≤ nCtx) :
    ∃ k, (Infer W p nPredict prompt nCtx k).pc = Phase.halted Outcome.ok ∧
      outputs (Infer W p nPredict prompt nCtx k).trace = [W.TokenEOS] ∧
      ∀ j, Infer W p nPredict prompt nCtx (k + j) = Infer W p nPredict prompt nCtx k :=
  Infer_eos_with_input W p nPredict prompt nCtx M hlen hN hB hE hS hC hT hQ
    (no_panic_of_fit W p nPredict prompt nCtx hlen hS (by omega) hw1 hw2 hfit)

/-- The statement of C4 (amended) for an unbounded run (`nPredict = -1`) in
which the user types two tokens when the provider is first called: the prompt
and the two tokens are evaluated, then the end-of-text token is emitted. -/
theorem eos_run_emits_once_witness :
    ∃ k, (Infer eosChatWorld stubParams (-1) [1, 2] 8 k).pc = Phase.halted Outcome.ok ∧
      outputs (Infer eosChatWorld stubParams (-1) [1, 2] 8 k).trace =
        [eosChatWorld.TokenEOS] ∧
      ∀ j, Infer eosChatWorld stubParams (-1) [1, 2] 8 (k + j) =
        Infer eosChatWorld stubParams (-1) [1, 2] 8 k :=
  eos_run_emits_once eosChatWorld stubParams (-1) [1, 2] 8 1 (by decide) (by decide)
    (by decide) (fun _ _ _ _ => rfl) (fun _ _ => rfl) (fun _ => ChanRecv.noConfusion)
    (fun tr _ _ => by
      show (if inputsAppended tr = [] then some ([11, 12] : List Token) else some []) ≠ none
      split <;> simp)
    (fun tr _ _ h => by
      show (if inputsAppended tr = [] then some ([11, 12] : List Token) else some []) = some []
      rw [if_neg]
      intro h0
      rw [h0] at h
      simp at h)
    (no_panic_of_fit eosChatWorld stubParams (-1) [1, 2] 8 (by decide) (fun _ _ => rfl)
      (by decide) (by decide) (by decide)
      (fun tr _ _ i hi hle => by
        have hi2 : (if inputsAppended tr = [] then some ([11, 12] : List Token) else some [])
            = some i := hi
        split at hi2
        · next h0 =>
          simp only [Option.some.injEq] at hi2
          rw [← hi2]
          simp [tokensGiven, h0]
        · simp only [Option.some.injEq] at hi2
          rw [← hi2]
          simpa using hle))

/-! ### The length check -/

theorem step_not_promptTooLong (W : World) (p : LLamaParams) (nCtx : Int) (s : State)
    (h : s.pc ≠ Phase.halted Outcome.promptTooLong) :
    (step W p nCtx s).pc ≠ Phase.halted Outcome.promptTooLong := by
  have ht := step_trans W p nCtx s
  generalize step W p nCtx s = s' at ht
  cases ht
  case stay => exact h
  case evalDone ok pc hpc he hok hpc2 =>
    show pc ≠ _
    rw [hpc2]
    cases ok <;> simp
  all_goals simp [State.halt]

/-- C7. Configuration error: for a context capacity `nCtx ≥ 0` (the value of
`llama.ContextSize()` at both call sites), `Infer` returns the prompt-too-long
error if and only if the number of prompt tokens is greater than `nCtx - 4`;
when it does, it returns it before the loop starts: nothing was ever called
(the trace of `Eval`, sampler, output sink, input provider and channel is
empty) and the keep count is the configured one. -/
theorem prompt_too_long_iff (W : World) (p : LLamaParams) (nPredict : Int)
    (prompt : List Token) (nCtx : Int) (hC : 0 ≤ nCtx) :
    ((∃ n, (Infer W p nPredict prompt nCtx n).pc = Phase.halted Outcome.promptTooLong) ↔
      (prompt.length : Int) > nCtx - 4) ∧
    ((prompt.length : Int) > nCtx - 4 →
      ∀ n, (Infer W p nPredict prompt nCtx n).pc = Phase.halted Outcome.promptTooLong ∧
        (Infer W p nPredict prompt nCtx n).trace = [] ∧
        (Infer W p nPredict prompt nCtx n).NKeep = p.NKeep) := by
  have hlong : (prompt.length : Int) > nCtx - 4 →
      ∀ n, (Infer W p nPredict prompt nCtx n).pc = Phase.halted Outcome.promptTooLong ∧
        (Infer W p nPredict prompt nCtx n).trace = [] ∧
        (Infer W p nPredict prompt nCtx n).NKeep = p.NKeep := by
    intro hl n
    have h0 : inferInit p nPredict prompt nCtx =
        { pc := Phase.halted Outcome.promptTooLong, NKeep := p.NKeep, nProcessed := 0,
          nRemain := nPredict, lastNTokens := List.replicate nCtx.toNat 0, embed := [],
          embedInput := prompt, trace := [], batches := [], fed := [], swaps := 0 } := by
      unfold inferInit
      dsimp only
      rw [if_neg (by omega), if_pos hl]
      rfl
    unfold Infer
    rw [run_halted W p nCtx _ Outcome.promptTooLong (by rw [h0]) n, h0]
    exact ⟨rfl, rfl, rfl⟩
  refine ⟨⟨?_, fun hl => ⟨0, (hlong hl 0).1⟩⟩, hlong⟩
  rintro ⟨n, hn⟩
  by_contra hshort
  have h0 := inferInit_ok p nPredict prompt nCtx (by omega)
  have hne : (inferInit p nPredict prompt nCtx).pc ≠ Phase.halted Outcome.promptTooLong := by
    rw [h0]; simp
  exact run_invariant W p nCtx (fun s => s.pc ≠ Phase.halted Outcome.promptTooLong)
    (step_not_promptTooLong W p nCtx) _ hne n hn

/-- The statement of C7 for a prompt of five tokens and capacity 8. -/
theorem prompt_too_long_iff_witness :
    (0 : Int) ≤ 8 ∧
    (((∃ n, (Infer stubWorld stubParams 2 [1, 2, 3, 4, 5] 8 n).pc =
          Phase.halted Outcome.promptTooLong) ↔
        ((([1, 2, 3, 4, 5] : List Token).length : Int) > 8 - 4)) ∧
      (((([1, 2, 3, 4, 5] : List Token).length : Int) > 8 - 4) →
        ∀ n, (Infer stubWorld stubParams 2 [1, 2, 3, 4, 5] 8 n).pc =
            Phase.halted Outcome.promptTooLong ∧
          (Infer stubWorld stubParams 2 [1, 2, 3, 4, 5] 8 n).trace = [] ∧
          (Infer stubWorld stubParams 2 [1, 2, 3, 4, 5] 8 n).NKeep = stubParams.NKeep)) :=
  ⟨by decide, prompt_too_long_iff stubWorld stubParams 2 [1, 2, 3, 4, 5] 8 (by decide)⟩

/-! ### Concrete runs -/

/-- The scenario of the specification: prompt tokens `[1, 2]`, capacity 8,
batch size 8, two tokens to predict, a sampler that returns 9 then 10: the run
emits `[9, 10]`, returns nil, and ends with a history buffer of length 8. -/
theorem scenario_hello :
    (InferPromptOnly stubWorld stubParams [1, 2] 40).pc = Phase.halted Outcome.ok ∧
    outputs (InferPromptOnly stubWorld stubParams [1, 2] 40).trace = [9, 10] ∧
    (InferPromptOnly stubWorld stubParams [1, 2] 40).lastNTokens.length = 8 := by
  decide

/-- C3, the failing input: the prompt-only run of the scenario with
`RepeatLastN = 0` (within `0 ≤ RepeatLastN ≤ nCtx`) and two tokens to predict
ends in the index-out-of-range panic of `&tokens[0]` in `SampleTopPTopK`, at
the first sample step; the sampler and the output sink were never called. -/
theorem zero_window_panics :
    (InferPromptOnly stubWorld zeroWindowParams [1, 2] 13).pc = Phase.halted Outcome.panic ∧
    outputs (InferPromptOnly stubWorld zeroWindowParams [1, 2] 13).trace = [] ∧
    sampled (InferPromptOnly stubWorld zeroWindowParams [1, 2] 13).trace = [] ∧
    (InferPromptOnly stubWorld zeroWindowParams [1, 2] 12).pc = Phase.sample ∧
    goSlice (InferPromptOnly stubWorld zeroWindowParams [1, 2] 12).lastNTokens
      (stubWorld.ContextSize - zeroWindowParams.RepeatLastN) 8 = some [] ∧
    SampleTopPTopK stubWorld (InferPromptOnly stubWorld zeroWindowParams [1, 2] 12).trace []
      = none := by
  decide

/-- Twelve tokens are emitted by the prompt-only run of the stub engine on the prompt `[1, 2, 3, 4]`, across two swaps. -/
theorem prompt_only_emits_N_witness :
    ∃ k, (InferPromptOnly stubWorld longParams [1, 2, 3, 4] k).pc = Phase.halted Outcome.ok ∧
      ((outputs (InferPromptOnly stubWorld longParams [1, 2, 3, 4] k).trace).length : Int) =
        longParams.NPredict ∧
      outputs (InferPromptOnly stubWorld longParams [1, 2, 3, 4] k).trace =
        sampled (InferPromptOnly stubWorld longParams [1, 2, 3, 4] k).trace ∧
      ((InferPromptOnly stubWorld longParams [1, 2, 3, 4] k).lastNTokens.length : Int) =
        stubWorld.ContextSize ∧
      EvalBound stubWorld.ContextSize
        (InferPromptOnly stubWorld longParams [1, 2, 3, 4] k).trace :=
  prompt_only_emits_N stubWorld longParams [1, 2, 3, 4] (by decide) (by decide) (by decide)
    (by decide) (by decide) (fun _ _ _ _ => rfl)
    (fun tr _ => by
      show (9 : Int) + ((sampled tr).length : Int) ≠ 2
      omega)
    (fun _ => ChanRecv.noConfusion)

/-- With a batch size of at most 0 and a non-empty queue the populate step
never shortens the queue, so that nothing is ever sampled or emitted. -/
theorem step_no_batch (W : World) (p : LLamaParams) (nCtx : Int) (hB : p.NBatch ≤ 0)
    (s : State) (h : s.embedInput ≠ [] ∧ outputs s.trace = []) :
    (step W p nCtx s).embedInput ≠ [] ∧ outputs (step W p nCtx s).trace = [] := by
  have ht := step_trans W p nCtx s
  generalize step W p nCtx s = s' at ht
  obtain ⟨hq, ho⟩ := h
  cases ht
  case sampleDone w r hpc hq0 hw hwne hl hr => exact absurd hq0 hq
  case samplePanic w hpc hq0 => exact absurd hq0 hq
  case provEnd hpc hq0 hr => exact absurd hq0 hq
  case provIn i hpc hq0 hr => exact absurd hq0 hq
  case popDone b hpc hq0 hb hbl =>
    have hb0 : b = 0 := by
      have : 0 < s.embedInput.length := List.length_pos.2 hq
      omega
    subst hb0
    exact ⟨by simpa using hq, ho⟩
  case intIn i hpc hc hr =>
    refine ⟨by simp [hq], ?_⟩
    rw [outputs_append, outputs_append, ho]; simp [outputs]
  case intEnd hpc hc hr =>
    refine ⟨hq, ?_⟩
    rw [outputs_append, outputs_append, ho]; simp [outputs]
  case intNone r hpc hc hr =>
    refine ⟨hq, ?_⟩
    rw [outputs_append, ho]; simp [outputs]
  case evalDone ok pc hpc he hok hpc2 =>
    refine ⟨hq, ?_⟩
    rw [outputs_append, ho]; simp [outputs]
  all_goals exact ⟨hq, ho⟩

/-- With an input provider that returns at least one token at every call the
queue is never empty at the sample step, so that nothing is ever sampled or
emitted. -/
theorem step_always_fed (W : World) (p : LLamaParams) (nCtx : Int)
    (hF : ∀ tr l b i, W.fnIn tr l b = some i → i ≠ [])
    (s : State)
    (h : outputs s.trace = [] ∧
      (s.embedInput = [] → s.pc = Phase.provide ∨ s.pc.isHalted = true)) :
    outputs (step W p nCtx s).trace = [] ∧
      ((step W p nCtx s).embedInput = [] →
        (step W p nCtx s).pc = Phase.provide ∨ (step W p nCtx s).pc.isHalted = true) := by
  have ht := step_trans W p nCtx s
  generalize step W p nCtx s = s' at ht
  obtain ⟨ho, hq⟩ := h
  have hne : ∀ ph : Phase, s.pc = ph → ph ≠ Phase.provide → ph.isHalted = false →
      s.embedInput ≠ [] := by
    intro ph hph h1 h2 h0
    rcases hq h0 with h3 | h3
    · exact h1 (hph ▸ h3)
    · rw [hph, h2] at h3; cases h3
  cases ht
  case stay o hpc => exact ⟨ho, hq⟩
  case panic hpc => exact ⟨ho, fun _ => Or.inr rfl⟩
  case loopEnd hpc hr => exact ⟨ho, fun _ => Or.inr rfl⟩
  case eosStop hpc he hl => exact ⟨ho, fun _ => Or.inr rfl⟩
  case loopGo hpc hr => exact ⟨ho, fun h0 => absurd h0 (hne _ hpc (by simp) rfl)⟩
  case evalSkip hpc he => exact ⟨ho, fun h0 => absurd h0 (hne _ hpc (by simp) rfl)⟩
  case evalFits hpc he hfit => exact ⟨ho, fun h0 => absurd h0 (hne _ hpc (by simp) rfl)⟩
  case swap keep hpc he hov hk =>
    exact ⟨ho, fun h0 => absurd h0 (hne _ hpc (by simp) rfl)⟩
  case evalDone ok pc hpc he hok hpc2 =>
    refine ⟨by rw [outputs_append, ho]; simp [outputs], fun h0 => ?_⟩
    exact absurd h0 (hne _ hpc (by simp) rfl)
  case advance hpc => exact ⟨ho, fun h0 => absurd h0 (hne _ hpc (by simp) rfl)⟩
  case sampleSkip hpc hq0 => exact ⟨ho, fun h0 => absurd h0 hq0⟩
  case samplePanic w hpc hq0 => exact absurd hq0 (hne _ hpc (by simp) rfl)
  case sampleDone w r hpc hq0 hw hwne hl hr => exact absurd hq0 (hne _ hpc (by simp) rfl)
  case eosGo hpc he => exact ⟨ho, fun h0 => absurd h0 (hne _ hpc (by simp) rfl)⟩
  case popSkip hpc hq0 => exact ⟨ho, fun _ => Or.inl rfl⟩
  case popDone b hpc hq0 hb hbl => exact ⟨ho, fun _ => Or.inl rfl⟩
  case provSkip hpc hq0 => exact ⟨ho, fun h0 => absurd h0 hq0⟩
  case provEnd hpc hq0 hr =>
    exact ⟨by rw [outputs_append, ho]; simp [outputs], fun _ => Or.inr rfl⟩
  case provIn i hpc hq0 hr =>
    refine ⟨by rw [outputs_append, ho]; simp [outputs], fun h0 => ?_⟩
    have : s.embedInput ++ i = [] := h0
    exact absurd (List.append_eq_nil.1 this).2 (hF _ _ _ _ hr)
  case intNone r hpc hc hr =>
    refine ⟨by rw [outputs_append, ho]; simp [outputs], fun h0 => ?_⟩
    exact absurd h0 (hne _ hpc (by simp) rfl)
  case intEnd hpc hc hr =>
    exact ⟨by rw [outputs_append, outputs_append, ho]; simp [outputs], fun _ => Or.inr rfl⟩
  case intIn i hpc hc hr =>
    refine ⟨by rw [outputs_append, outputs_append, ho]; simp [outputs], fun h0 => ?_⟩
    have : s.embedInput ++ i = [] := h0
    exact absurd (List.append_eq_nil.1 this).2 (hF _ _ _ _ hr)

/-- C4, counterexample: runs of `Infer` whose sampler would always return the
end-of-text token, whose `Eval` never fails and without interjection, that do
not call the output sink once and return nil. With `nPredict = 0` the loop is
not entered; an input provider that returns the terminate signal ends the run
before anything is sampled; with batch size 0, or with an input provider that
returns a token at every call, nothing is ever emitted; and a negative batch
size, a repeat window larger than the context or an input of nine tokens in
one batch on a context of eight ends in a slice-bounds panic without output. -/
theorem eos_run_without_output :
    ((Infer eosWorld stubParams 0 [1, 2] 8 1).pc = Phase.halted Outcome.ok ∧
      outputs (Infer eosWorld stubParams 0 [1, 2] 8 1).trace = []) ∧
    ((Infer quitWorld stubParams 5 [1, 2] 8 7).pc = Phase.halted Outcome.ok ∧
      outputs (Infer quitWorld stubParams 5 [1, 2] 8 7).trace = []) ∧
    (∀ k, outputs (Infer eosWorld zeroBatchParams 5 [1, 2] 8 k).trace = []) ∧
    (∀ k, outputs (Infer feedWorld stubParams 5 [1, 2] 8 k).trace = []) ∧
    ((Infer eosWorld negativeBatchParams 5 [1, 2] 8 6).pc = Phase.halted Outcome.panic ∧
      outputs (Infer eosWorld negativeBatchParams 5 [1, 2] 8 6).trace = []) ∧
    ((Infer eosWorld wideWindowParams 5 [1, 2] 8 13).pc = Phase.halted Outcome.panic ∧
      outputs (Infer eosWorld wideWindowParams 5 [1, 2] 8 13).trace = []) ∧
    ((Infer floodWorld wideBatchParams 5 [1, 2] 8 15).pc = Phase.halted Outcome.panic ∧
      outputs (Infer floodWorld wideBatchParams 5 [1, 2] 8 15).trace = []) := by
  refine ⟨by decide, by decide, ?_, ?_, by decide, by decide, by decide⟩
  · intro k
    exact (run_invariant eosWorld zeroBatchParams 8
      (fun s => s.embedInput ≠ [] ∧ outputs s.trace = [])
      (step_no_batch eosWorld zeroBatchParams 8 (by decide)) _ (by decide) k).2
  · intro k
    exact (run_invariant feedWorld stubParams 8
      (fun s => outputs s.trace = [] ∧
        (s.embedInput = [] → s.pc = Phase.provide ∨ s.pc.isHalted = true))
      (step_always_fed feedWorld stubParams 8
        (fun _ _ _ i hi => by
          have h11 : some ([11] : List Token) = some i := hi
          simp only [Option.some.injEq] at h11
          rw [← h11]; simp)) _
      ⟨by decide, fun h0 => absurd h0 (by decide)⟩ k).1

/-- C8, counterexample: prompt `[1, 2, 3, 4]`, capacity 8, keep count 0; when
the first swap is due, the tokens evaluated so far are
`s = [1, 2, 3, 4, 9, 10, 11, 12]` (`P = 8`) and the incoming batch is `[13]`;
the swap prepends `[9, 10, 11, 12]`, the last four tokens of `s`, and not
`s[0..3] = [1, 2, 3, 4]`, the tokens that follow the kept prefix. -/
theorem first_swap_counterexample :
    (Infer stubWorld longParams 12 [1, 2, 3, 4] 8 54).pc = Phase.evaluate ∧
    (Infer stubWorld longParams 12 [1, 2, 3, 4] 8 54).swaps = 0 ∧
    (Infer stubWorld longParams 12 [1, 2, 3, 4] 8 54).nProcessed = 8 ∧
    (Infer stubWorld longParams 12 [1, 2, 3, 4] 8 54).NKeep = 0 ∧
    (Infer stubWorld longParams 12 [1, 2, 3, 4] 8 54).embed = [13] ∧
    evalTokens (Infer stubWorld longParams 12 [1, 2, 3, 4] 8 54).trace =
      [1, 2, 3, 4, 9, 10, 11, 12] ∧
    (Infer stubWorld longParams 12 [1, 2, 3, 4] 8 55).swaps = 1 ∧
    (Infer stubWorld longParams 12 [1, 2, 3, 4] 8 55).embed = [9, 10, 11, 12, 13] ∧
    (Infer stubWorld longParams 12 [1, 2, 3, 4] 8 55).embed ≠
      ((evalTokens (Infer stubWorld longParams 12 [1, 2, 3, 4] 8 54).trace).drop 0).take 4 ++
        (Infer stubWorld longParams 12 [1, 2, 3, 4] 8 54).embed := by
  decide

/-- C10, the failing input: an interactive run with capacity 8, prompt `[1]`,
keep count 1 and batch size 8 in which the user types eight tokens. The swap
leaves `nProcessed = 1` and a batch of eight tokens, `Eval` is called with
`n_past = 1` and eight tokens (`1 + 8 > 8`), and `nProcessed` becomes 9. -/
theorem interactive_eval_exceeds_capacity :
    (InferInteractive chatWorld keepParams [1] 18).pc = Phase.evaluate ∧
    (InferInteractive chatWorld keepParams [1] 18).nProcessed = 1 ∧
    (InferInteractive chatWorld keepParams [1] 18).embed = [11, 12, 13, 14, 15, 16, 17, 18] ∧
    (InferInteractive chatWorld keepParams [1] 19).pc = Phase.evalCall ∧
    (InferInteractive chatWorld keepParams [1] 19).swaps = 1 ∧
    (InferInteractive chatWorld keepParams [1] 19).nProcessed = 1 ∧
    (InferInteractive chatWorld keepParams [1] 19).embed = [11, 12, 13, 14, 15, 16, 17, 18] ∧
    evalCalls (InferInteractive chatWorld keepParams [1] 20).trace =
      [([1], 0), ([11, 12, 13, 14, 15, 16, 17, 18], 1)] ∧
    (InferInteractive chatWorld keepParams [1] 21).nProcessed = 9 ∧
    ¬ EvalBound chatWorld.ContextSize (InferInteractive chatWorld keepParams [1] 20).trace := by
  decide

end Inference
